import Mathlib

set_option maxHeartbeats 1000000
set_option linter.unusedSectionVars false

namespace Plonky3

/-!
Shallow embedding of the core of the repository: the circle-FFT engine
(`circle/src/cfft.rs`), the FRI verifier (`fri/src/verifier.rs`), the
Poseidon2 permutation (`poseidon2/src/lib.rs`), the Blake3 AIR column layout
(`blake3-air/src/columns.rs`) and the Mersenne-31 backward FFT
(`mersenne-31/src/cfft/backward.rs`).  Matrices are represented by their flat
row-major buffer (`Vec<F>` in the source becomes `List F`); assertion
boundaries of fallible constructors become `Option`.
-/

section CircleFft

variable {F : Type} [Field F]

/-- Modelled from the spec: the decimation-in-frequency butterfly
`DifButterfly(t)` of the external `p3_dft` crate, used by `interpolate`:
`(x1, x2) ↦ (x1 + x2, (x1 - x2) * t)`. -/
def difB (t x1 x2 : F) : F × F := (x1 + x2, (x1 - x2) * t)

/-- Modelled from the spec: the decimation-in-time butterfly `DitButterfly(t)`
of the external `p3_dft` crate, used by `evaluate`:
`(x1, x2) ↦ (x1 + t * x2, x1 - t * x2)`. -/
def ditB (t x1 x2 : F) : F × F := (x1 + t * x2, x1 - t * x2)

/-- `Butterfly::apply_to_rows`: one butterfly applied elementwise to the `lo`
and `hi` halves of a block, the two modified halves written back in place. -/
def applyPair (bf : F → F → F → F × F) (t : F) (lo hi : List F) : List F :=
  List.zipWith (fun a b => (bf t a b).1) lo hi ++
    List.zipWith (fun a b => (bf t a b).2) lo hi

/-- The loop body of `serial_layer` (cfft.rs): the flat buffer is cut into
blocks of `2 * half` entries, one twiddle per block; each block is split into
its `lo` and `hi` halves and the butterfly is applied to the rows.  Chunks
beyond the twiddle list (and a trailing partial chunk) are left untouched,
as with `chunks_exact_mut` zipped against the twiddles. -/
def layerGo (bf : F → F → F → F × F) (half : Nat) : List F → List F → List F
  | [], v => v
  | t :: ts, v =>
    if 2 * half ≤ v.length then
      applyPair bf t (v.take half) ((v.drop half).take half) ++
        layerGo bf half ts (v.drop (2 * half))
    else v

/-- `serial_layer` (cfft.rs): the block size is `values.len() / twiddles.len()`
and each block is halved. -/
def serial_layer (bf : F → F → F → F × F) (v : List F) (ts : List F) : List F :=
  layerGo bf (v.length / ts.length / 2) ts v

theorem applyPair_length (bf : F → F → F → F × F) (t : F) (lo hi : List F)
    (h : hi.length = lo.length) :
    (applyPair bf t lo hi).length = 2 * lo.length := by
  simp [applyPair, h, Nat.two_mul]

theorem layerGo_length (bf : F → F → F → F × F) (half : Nat) (ts v : List F) :
    (layerGo bf half ts v).length = v.length := by
  induction ts generalizing v with
  | nil => rfl
  | cons t ts ih =>
    by_cases h : 2 * half ≤ v.length
    · have hhalf : half ≤ v.length := le_trans (Nat.le_mul_of_pos_left _ (by omega)) h
      have hlo : (v.take half).length = half := by
        simp [List.length_take, Nat.min_eq_left hhalf]
      have hhi : ((v.drop half).take half).length = half := by
        simp [List.length_take, List.length_drop]
        omega
      simp only [layerGo, if_pos h]
      rw [List.length_append, ih, applyPair_length _ _ _ _ (by rw [hlo, hhi]), hlo,
        List.length_drop]
      omega
    · simp only [layerGo, if_neg h]

theorem serial_layer_length (bf : F → F → F → F × F) (v ts : List F) :
    (serial_layer bf v ts).length = v.length :=
  layerGo_length ..

theorem foldl_serial_layer_length (bf : F → F → F → F × F) (tws : List (List F))
    (v : List F) :
    (tws.foldl (serial_layer bf) v).length = v.length := by
  induction tws generalizing v with
  | nil => rfl
  | cons ts tws ih => rw [List.foldl_cons, ih, serial_layer_length]

theorem dif_dit_cancel (t : F) (ht : t ≠ 0) (a b : F) :
    ditB t (difB t⁻¹ a b).1 (difB t⁻¹ a b).2 = (2 * a, 2 * b) := by
  have h : t * ((a - b) * t⁻¹) = a - b := by
    rw [mul_comm (a - b) t⁻¹, ← mul_assoc, mul_inv_cancel₀ ht, one_mul]
  simp only [difB, ditB, h, Prod.mk.injEq]
  exact ⟨by ring, by ring⟩

theorem zip_cancel_fst (t : F) (ht : t ≠ 0) :
    ∀ lo hi : List F, lo.length = hi.length →
    List.zipWith (fun a b => (ditB t a b).1)
      (List.zipWith (fun a b => (difB t⁻¹ a b).1) lo hi)
      (List.zipWith (fun a b => (difB t⁻¹ a b).2) lo hi)
    = lo.map (fun x => 2 * x)
  | [], [], _ => rfl
  | a :: lo, b :: hi, h => by
    have hd := congrArg Prod.fst (dif_dit_cancel t ht a b)
    simp only [List.zipWith_cons_cons, List.map_cons]
    rw [zip_cancel_fst t ht lo hi (by simpa using h)]
    exact congrArg (· :: _) hd

theorem zip_cancel_snd (t : F) (ht : t ≠ 0) :
    ∀ lo hi : List F, lo.length = hi.length →
    List.zipWith (fun a b => (ditB t a b).2)
      (List.zipWith (fun a b => (difB t⁻¹ a b).1) lo hi)
      (List.zipWith (fun a b => (difB t⁻¹ a b).2) lo hi)
    = hi.map (fun x => 2 * x)
  | [], [], _ => rfl
  | a :: lo, b :: hi, h => by
    have hd := congrArg Prod.snd (dif_dit_cancel t ht a b)
    simp only [List.zipWith_cons_cons, List.map_cons]
    rw [zip_cancel_snd t ht lo hi (by simpa using h)]
    exact congrArg (· :: _) hd

theorem applyPair_cancel (t : F) (ht : t ≠ 0) (lo hi : List F)
    (h : lo.length = hi.length) :
    applyPair ditB t
      (List.zipWith (fun a b => (difB t⁻¹ a b).1) lo hi)
      (List.zipWith (fun a b => (difB t⁻¹ a b).2) lo hi)
    = (lo ++ hi).map (fun x => 2 * x) := by
  unfold applyPair
  rw [zip_cancel_fst t ht lo hi h, zip_cancel_snd t ht lo hi h, List.map_append]

theorem layerGo_cancel (ts : List F) (half : Nat) :
    ∀ u : List F, (∀ t ∈ ts, t ≠ 0) → u.length = 2 * half * ts.length →
    layerGo ditB half ts (layerGo difB half (ts.map (fun t => t⁻¹)) u)
      = u.map (fun x => 2 * x) := by
  induction ts with
  | nil =>
    intro u _ hlen
    have : u = [] := List.eq_nil_of_length_eq_zero (by simpa using hlen)
    subst this; rfl
  | cons t ts ih =>
    intro u hnz hlen
    have hguard : 2 * half ≤ u.length := by
      rw [hlen, List.length_cons, Nat.mul_succ]; omega
    have hhalf : half ≤ u.length := by omega
    have hlo : (u.take half).length = half := by
      simp [List.length_take, Nat.min_eq_left hhalf]
    have hhi : ((u.drop half).take half).length = half := by
      simp [List.length_take, List.length_drop]; omega
    have hrest : (u.drop (2 * half)).length = 2 * half * ts.length := by
      rw [List.length_drop, hlen, List.length_cons, Nat.mul_succ]; omega
    have hz1 : (List.zipWith (fun a b => (difB t⁻¹ a b).1) (u.take half)
        ((u.drop half).take half)).length = half := by
      simp [List.length_zipWith, hlo, hhi]
    have hz2 : (List.zipWith (fun a b => (difB t⁻¹ a b).2) (u.take half)
        ((u.drop half).take half)).length = half := by
      simp [List.length_zipWith, hlo, hhi]
    have hinner : layerGo difB half ((t :: ts).map (fun t => t⁻¹)) u
        = applyPair difB t⁻¹ (u.take half) ((u.drop half).take half) ++
            layerGo difB half (ts.map (fun t => t⁻¹)) (u.drop (2 * half)) := by
      simp only [List.map_cons, layerGo, if_pos hguard]
    rw [hinner]
    unfold applyPair
    rw [List.append_assoc]
    have houter : layerGo ditB half (t :: ts)
        (List.zipWith (fun a b => (difB t⁻¹ a b).1) (u.take half)
            ((u.drop half).take half) ++
          (List.zipWith (fun a b => (difB t⁻¹ a b).2) (u.take half)
            ((u.drop half).take half) ++
            layerGo difB half (ts.map (fun t => t⁻¹)) (u.drop (2 * half))))
        = applyPair ditB t
            (List.zipWith (fun a b => (difB t⁻¹ a b).1) (u.take half)
              ((u.drop half).take half))
            (List.zipWith (fun a b => (difB t⁻¹ a b).2) (u.take half)
              ((u.drop half).take half)) ++
          layerGo ditB half ts
            (layerGo difB half (ts.map (fun t => t⁻¹)) (u.drop (2 * half))) := by
      have hlenall : (List.zipWith (fun a b => (difB t⁻¹ a b).1) (u.take half)
          ((u.drop half).take half) ++
            (List.zipWith (fun a b => (difB t⁻¹ a b).2) (u.take half)
              ((u.drop half).take half) ++
              layerGo difB half (ts.map (fun t => t⁻¹)) (u.drop (2 * half)))).length
          = u.length := by
        simp only [List.length_append, hz1, hz2, layerGo_length, List.length_drop]
        omega
      simp only [layerGo, if_pos (hlenall ▸ hguard)]
      rw [List.take_append_of_le_length (by rw [hz1]),
        List.drop_append_of_le_length (by rw [hz1])]
      have h1 : (List.zipWith (fun a b => (difB t⁻¹ a b).1) (u.take half)
          ((u.drop half).take half)).take half
          = List.zipWith (fun a b => (difB t⁻¹ a b).1) (u.take half)
              ((u.drop half).take half) := by
        rw [List.take_of_length_le (le_of_eq hz1)]
      have h2 : (List.zipWith (fun a b => (difB t⁻¹ a b).1) (u.take half)
          ((u.drop half).take half)).drop half = [] := by
        rw [List.drop_of_length_le (le_of_eq hz1)]
      rw [h1, h2, List.nil_append,
        List.take_append_of_le_length (le_of_eq hz2.symm),
        List.take_of_length_le (le_of_eq hz2)]
      congr 1
      have h3 : 2 * half = half + half := by omega
      rw [h3, ← List.drop_drop,
        List.drop_append_of_le_length (le_of_eq hz1.symm),
        List.drop_of_length_le (le_of_eq hz1), List.nil_append,
        List.drop_append_of_le_length (le_of_eq hz2.symm),
        List.drop_of_length_le (le_of_eq hz2), List.nil_append]
    rw [houter,
      applyPair_cancel t (hnz t (List.mem_cons_self t ts)) _ _ (by rw [hlo, hhi]),
      ih _ (fun s hs => hnz s (List.mem_cons_of_mem _ hs)) hrest,
      ← List.map_append]
    congr 1
    have h3 : 2 * half = half + half := by omega
    conv_rhs => rw [← List.take_append_drop (2 * half) u]
    rw [h3, List.take_add]

theorem serial_layer_cancel (ts u : List F) (hnz : ∀ t ∈ ts, t ≠ 0)
    (h : Nat) (hts : 0 < ts.length) (hlen : u.length = 2 * h * ts.length) :
    serial_layer ditB (serial_layer difB u (ts.map (fun t => t⁻¹))) ts
      = u.map (fun x => 2 * x) := by
  have hhalf : u.length / ts.length / 2 = h := by
    rw [hlen, Nat.mul_div_cancel _ hts]
    omega
  unfold serial_layer
  rw [List.length_map, layerGo_length, hhalf]
  exact layerGo_cancel ts h u hnz hlen

theorem zipWith_comp_map {α β : Type} (f : α → α → β) (g : α → α) :
    ∀ l1 l2 : List α,
    List.zipWith f (l1.map g) (l2.map g) = List.zipWith (fun a b => f (g a) (g b)) l1 l2
  | [], _ => by simp
  | _ :: _, [] => by simp
  | a :: l1, b :: l2 => by
    simp only [List.map_cons, List.zipWith_cons_cons]
    rw [zipWith_comp_map f g l1 l2]

theorem zipWith_ext {α β : Type} (f g : α → α → β)
    (h : ∀ a b, f a b = g a b) :
    ∀ l1 l2 : List α, List.zipWith f l1 l2 = List.zipWith g l1 l2
  | [], _ => by simp
  | _ :: _, [] => by simp
  | a :: l1, b :: l2 => by
    simp only [List.zipWith_cons_cons]
    rw [h a b, zipWith_ext f g h l1 l2]

theorem applyPair_map_mul (bf : F → F → F → F × F) (c : F)
    (hbf : ∀ t a b, bf t (c * a) (c * b) = (c * (bf t a b).1, c * (bf t a b).2))
    (t : F) (lo hi : List F) :
    applyPair bf t (lo.map (fun x => c * x)) (hi.map (fun x => c * x))
      = (applyPair bf t lo hi).map (fun x => c * x) := by
  unfold applyPair
  rw [List.map_append, zipWith_comp_map, zipWith_comp_map, List.map_zipWith,
    List.map_zipWith]
  congr 1
  · exact zipWith_ext _ _ (fun a b => congrArg Prod.fst (hbf t a b)) lo hi
  · exact zipWith_ext _ _ (fun a b => congrArg Prod.snd (hbf t a b)) lo hi

theorem layerGo_map_mul (bf : F → F → F → F × F) (c : F)
    (hbf : ∀ t a b, bf t (c * a) (c * b) = (c * (bf t a b).1, c * (bf t a b).2))
    (half : Nat) (ts : List F) :
    ∀ v : List F,
    layerGo bf half ts (v.map (fun x => c * x))
      = (layerGo bf half ts v).map (fun x => c * x) := by
  induction ts with
  | nil => intro v; rfl
  | cons t ts ih =>
    intro v
    by_cases hg : 2 * half ≤ v.length
    · have hg2 : 2 * half ≤ (v.map (fun x => c * x)).length := by simpa using hg
      simp only [layerGo, if_pos hg, if_pos hg2]
      rw [← List.map_take, ← List.map_drop, ← List.map_take,
        applyPair_map_mul bf c hbf, ← List.map_drop, ih, List.map_append]
    · have hg2 : ¬ 2 * half ≤ (v.map (fun x => c * x)).length := by simpa using hg
      simp only [layerGo, if_neg hg, if_neg hg2]

theorem serial_layer_map_mul (bf : F → F → F → F × F) (c : F)
    (hbf : ∀ t a b, bf t (c * a) (c * b) = (c * (bf t a b).1, c * (bf t a b).2))
    (v ts : List F) :
    serial_layer bf (v.map (fun x => c * x)) ts
      = (serial_layer bf v ts).map (fun x => c * x) := by
  unfold serial_layer
  rw [List.length_map]
  exact layerGo_map_mul bf c hbf _ ts v

theorem foldl_serial_layer_map_mul (bf : F → F → F → F × F) (c : F)
    (hbf : ∀ t a b, bf t (c * a) (c * b) = (c * (bf t a b).1, c * (bf t a b).2))
    (tws : List (List F)) :
    ∀ v : List F,
    tws.foldl (serial_layer bf) (v.map (fun x => c * x))
      = (tws.foldl (serial_layer bf) v).map (fun x => c * x) := by
  induction tws with
  | nil => intro v; rfl
  | cons ts tws ih =>
    intro v
    simp only [List.foldl_cons]
    rw [serial_layer_map_mul bf c hbf, ih]

theorem ditB_map_mul (c : F) :
    ∀ t a b : F, ditB t (c * a) (c * b) = (c * (ditB t a b).1, c * (ditB t a b).2) := by
  intro t a b
  simp only [ditB, Prod.mk.injEq]
  exact ⟨by ring, by ring⟩

theorem difB_map_mul (c : F) :
    ∀ t a b : F, difB t (c * a) (c * b) = (c * (difB t a b).1, c * (difB t a b).2) := by
  intro t a b
  simp only [difB, Prod.mk.injEq]
  exact ⟨by ring, by ring⟩

/-- Composing all DIF layers (with inverted twiddles, as `interpolate` does)
with all DIT layers in reverse order (as `evaluate` does) multiplies every
entry by `2 ^ (number of layers)`. -/
theorem dif_dit_round_trip (tws : List (List F)) (v : List F)
    (hnz : ∀ ts ∈ tws, ∀ t ∈ ts, t ≠ 0)
    (hshape : ∀ ts ∈ tws, ∃ h, 0 < ts.length ∧ v.length = 2 * h * ts.length) :
    tws.reverse.foldl (serial_layer ditB)
      ((tws.map (List.map (fun t => t⁻¹))).foldl (serial_layer difB) v)
      = v.map (fun x => (2 : F) ^ tws.length * x) := by
  induction tws using List.reverseRecOn with
  | nil => simp
  | append_singleton tws ts ih =>
    have hmem : ts ∈ tws ++ [ts] :=
      List.mem_append_right _ (List.mem_cons_self ts [])
    obtain ⟨h, hts, hlen⟩ := hshape ts hmem
    have hulen : ((tws.map (List.map (fun t => t⁻¹))).foldl (serial_layer difB) v).length
        = v.length := foldl_serial_layer_length ..
    simp only [List.map_append, List.map_singleton, List.foldl_append,
      List.foldl_cons, List.foldl_nil, List.reverse_append,
      List.reverse_singleton, List.singleton_append]
    rw [serial_layer_cancel ts _ (fun t htm => hnz ts hmem t htm) h hts
        (by rw [hulen, hlen]),
      foldl_serial_layer_map_mul ditB 2 (ditB_map_mul 2),
      ih (fun s hs t htm => hnz s (List.mem_append_left _ hs) t htm)
        (fun s hs => hshape s (List.mem_append_left _ hs)),
      List.map_map]
    apply List.map_congr_left
    intro a _
    simp only [Function.comp_apply, List.length_append, List.length_singleton]
    rw [pow_succ]
    ring

/-- Modelled from the spec: `Point(F)`, a pair `(x, y)` with `x² + y² = 1`,
from the external `circle/src/point.rs` (not under `src/`). -/
structure Point (F : Type) where
  x : F
  y : F
  deriving DecidableEq

/-- Modelled from the spec: the circle group law on `Point` (point.rs). -/
def Point.add (p q : Point F) : Point F :=
  ⟨p.x * q.x - p.y * q.y, p.x * q.y + p.y * q.x⟩

/-- Modelled from the spec: `CircleDomain { log_n, shift }`, semantically the
coset `shift + ⟨gen⟩` (domain.rs, not under `src/`).  The field `gen` records
the fixed generator `Point::generator(log_n - 1)` of the half-coset, which the
source obtains from the external field trait. -/
structure CircleDomain (F : Type) where
  log_n : Nat
  shift : Point F
  gen : Point F
  deriving DecidableEq

/-- `iterate(shift, |&p| p + g).take(n)` specialised to the circle group. -/
def cosetIter (start step : Point F) : Nat → List (Point F)
  | 0 => []
  | n + 1 => start :: cosetIter (start.add step) step n

/-- Modelled from the spec: `CircleDomain::coset0`, the half-coset
`{shift + k·gen : k < 2^(log_n - 1)}` of size `2^(log_n - 1)` (domain.rs). -/
def CircleDomain.coset0 (d : CircleDomain F) : List (Point F) :=
  cosetIter d.shift d.gen (2 ^ (d.log_n - 1))

theorem cosetIter_length (start step : Point F) :
    ∀ n, (cosetIter start step n).length = n := by
  intro n
  induction n generalizing start with
  | zero => rfl
  | succ n ih => simp [cosetIter, ih]

theorem coset0_length (d : CircleDomain F) :
    d.coset0.length = 2 ^ (d.log_n - 1) :=
  cosetIter_length ..

/-- Fuel-driven floor base-2 logarithm (structural recursion so that concrete
instances reduce). -/
def log2Aux : Nat → Nat → Nat
  | 0, _ => 0
  | fuel + 1, n => if n ≤ 1 then 0 else log2Aux fuel (n / 2) + 1

/-- Modelled from the spec: `log2_strict_usize` of `p3_util` — the floor
base-2 logarithm (the strictness assertion is carried by the `Option` guards
of the callers). -/
def log2s (n : Nat) : Nat := log2Aux n n

theorem log2Aux_two_pow (k : Nat) :
    ∀ fuel : Nat, 2 ^ k ≤ fuel → log2Aux fuel (2 ^ k) = k := by
  induction k with
  | zero =>
    intro fuel hf
    match fuel, hf with
    | fuel + 1, _ => simp [log2Aux]
  | succ k ih =>
    intro fuel hf
    have h1 : 0 < 2 ^ (k + 1) := Nat.pos_pow_of_pos _ two_pos
    match fuel, Nat.lt_of_lt_of_le h1 hf with
    | fuel + 1, _ =>
      have h2 : ¬ 2 ^ (k + 1) ≤ 1 := by
        have := Nat.one_lt_two_pow_iff.mpr (Nat.succ_ne_zero k)
        omega
      have h3 : 2 ^ (k + 1) / 2 = 2 ^ k := by
        rw [pow_succ]
        omega
      have h4 : 2 ^ k ≤ fuel := by
        have h5 : 2 ^ k < 2 ^ (k + 1) :=
          Nat.pow_lt_pow_right one_lt_two (Nat.lt_succ_self k)
        omega
      simp only [log2Aux, if_neg h2, h3, ih fuel h4]

theorem log2s_two_pow (k : Nat) : log2s (2 ^ k) = k :=
  log2Aux_two_pow k _ (le_refl _)

/-- Modelled from the spec: `p3_util::reverse_bits_len` — reverse the low `k`
bits of `i`. -/
def reverseBitsLen (i : Nat) : Nat → Nat
  | 0 => 0
  | k + 1 => i % 2 * 2 ^ k + reverseBitsLen (i / 2) k

/-- Modelled from the spec: `p3_util::reverse_slice_index_bits`, the standard
bit-reversal permutation of a slice of power-of-two length. -/
def bitRevList {α : Type} (dflt : α) (l : List α) : List α :=
  (List.range l.length).map (fun i => l.getD (reverseBitsLen i (log2s l.length)) dflt)

theorem bitRevList_length {α : Type} (dflt : α) (l : List α) :
    (bitRevList dflt l).length = l.length := by
  simp [bitRevList]

/-- `Iterator::step_by(2)`: every second element, starting with the first. -/
def stepBy2 {α : Type} : List α → List α
  | [] => []
  | [a] => [a]
  | a :: _ :: rest => a :: stepBy2 rest

theorem stepBy2_length {α : Type} :
    ∀ l : List α, (stepBy2 l).length = (l.length + 1) / 2
  | [] => by simp [stepBy2]
  | [_] => by simp [stepBy2]
  | _ :: _ :: rest => by
    simp only [stepBy2, List.length_cons]
    rw [stepBy2_length rest]
    omega

theorem stepBy2_length_pow {α : Type} (l : List α) (e : Nat)
    (h : l.length = 2 ^ e) : (stepBy2 l).length = 2 ^ (e - 1) := by
  rw [stepBy2_length, h]
  rcases Nat.eq_zero_or_pos e with he | he
  · subst he; rfl
  · have h2 : 2 ^ e = 2 * 2 ^ (e - 1) := by
      rw [← pow_succ']
      congr 1
      omega
    rw [h2]
    omega

/-- The twiddle recurrence `x ← 2·x² − 1` applied at stride 2 (the loop body of
`compute_twiddles`, cfft.rs lines 239-248). -/
def nextTwiddleLayer (prev : List F) : List F :=
  (stepBy2 prev).map (fun x => 2 * (x * x) - 1)

/-- The `for i in 0..(log_n - 2)` loop of `compute_twiddles`, pushing one new
layer derived from the previous one each iteration. -/
def twiddleLoop (prev : List F) : Nat → List (List F)
  | 0 => []
  | i + 1 => nextTwiddleLayer prev :: twiddleLoop (nextTwiddleLayer prev) i

/-- `compute_twiddles` (cfft.rs lines 231-250): bit-reverse the half-coset,
take layer 0 = y-coordinates, layer 1 = x-coordinates at stride 2, then apply
the Chebyshev doubling recurrence `log_n - 2` more times.  The source asserts
`log_n >= 2`; the theorems below carry that as a hypothesis. -/
def compute_twiddles (d : CircleDomain F) : List (List F) :=
  (bitRevList ⟨0, 0⟩ d.coset0).map Point.y ::
    (stepBy2 (bitRevList ⟨0, 0⟩ d.coset0)).map Point.x ::
      twiddleLoop ((stepBy2 (bitRevList ⟨0, 0⟩ d.coset0)).map Point.x) (d.log_n - 2)

theorem twiddleLoop_length (m : Nat) :
    ∀ prev : List F, (twiddleLoop prev m).length = m := by
  induction m with
  | zero => intro prev; rfl
  | succ m ih => intro prev; simp [twiddleLoop, ih]

theorem compute_twiddles_length (d : CircleDomain F) (h2 : 2 ≤ d.log_n) :
    (compute_twiddles d).length = d.log_n := by
  simp only [compute_twiddles, List.length_cons, twiddleLoop_length]
  omega

theorem nextTwiddleLayer_length_pow (prev : List F) (e : Nat)
    (h : prev.length = 2 ^ e) :
    (nextTwiddleLayer prev).length = 2 ^ (e - 1) := by
  simp only [nextTwiddleLayer, List.length_map]
  exact stepBy2_length_pow prev e h

theorem twiddleLoop_get_length (m : Nat) :
    ∀ (prev : List F) (e : Nat), prev.length = 2 ^ e → m ≤ e →
    ∀ (j : Nat) (hj : j < (twiddleLoop prev m).length),
    ((twiddleLoop prev m).get ⟨j, hj⟩).length = 2 ^ (e - 1 - j) := by
  induction m with
  | zero =>
    intro prev e _ _ j hj
    simp [twiddleLoop_length] at hj
  | succ m ih =>
    intro prev e hlen hm j hj
    cases j with
    | zero =>
      show (nextTwiddleLayer prev).length = 2 ^ (e - 1 - 0)
      rw [nextTwiddleLayer_length_pow prev e hlen]
      congr 1
    | succ j =>
      have hj2 : j < (twiddleLoop (nextTwiddleLayer prev) m).length := by
        simp only [twiddleLoop_length]
        simp only [twiddleLoop, List.length_cons, twiddleLoop_length] at hj
        omega
      have := ih (nextTwiddleLayer prev) (e - 1)
        (nextTwiddleLayer_length_pow prev e hlen) (by omega) j hj2
      show ((twiddleLoop (nextTwiddleLayer prev) m).get ⟨j, hj2⟩).length
          = 2 ^ (e - 1 - (j + 1))
      rw [this]
      congr 1
      omega

/-- Every layer of the twiddle table has length `2 ^ (log_n - 1 - i)`. -/
theorem compute_twiddles_get_length (d : CircleDomain F) (h2 : 2 ≤ d.log_n)
    (i : Nat) (hi : i < (compute_twiddles d).length) :
    ((compute_twiddles d).get ⟨i, hi⟩).length = 2 ^ (d.log_n - 1 - i) := by
  have hc0 : (bitRevList (⟨0, 0⟩ : Point F) d.coset0).length = 2 ^ (d.log_n - 1) := by
    rw [bitRevList_length, coset0_length]
  match i with
  | 0 =>
    show ((bitRevList (⟨0, 0⟩ : Point F) d.coset0).map Point.y).length = _
    rw [List.length_map, hc0]
    congr 1
  | 1 =>
    show ((stepBy2 (bitRevList (⟨0, 0⟩ : Point F) d.coset0)).map Point.x).length = _
    rw [List.length_map, stepBy2_length_pow _ _ hc0]
  | (j + 2) =>
    have hj : j < (twiddleLoop ((stepBy2 (bitRevList (⟨0, 0⟩ : Point F) d.coset0)).map Point.x) (d.log_n - 2)).length := by
      simp only [compute_twiddles, List.length_cons, twiddleLoop_length] at hi
      simp only [twiddleLoop_length]
      omega
    have hx : ((stepBy2 (bitRevList (⟨0, 0⟩ : Point F) d.coset0)).map Point.x).length
        = 2 ^ (d.log_n - 2) := by
      rw [List.length_map, stepBy2_length_pow _ _ hc0]
      congr 1
    have := twiddleLoop_get_length (d.log_n - 2) _ (d.log_n - 2) hx (le_refl _) j hj
    show ((twiddleLoop ((stepBy2 (bitRevList (⟨0, 0⟩ : Point F) d.coset0)).map Point.x) (d.log_n - 2)).get ⟨j, hj⟩).length = _
    rw [this]
    congr 1
    omega

/-- Row duplication: `coeffs.values.extend_from_within(..)` performed
`log_n - k` times (cfft.rs lines 137-143). -/
def dupTimes : Nat → List F → List F
  | 0, v => v
  | m + 1, v => dupTimes m (v ++ v)

/-- `CircleEvaluations::interpolate` (cfft.rs lines 43-88) on the flat
cfft-ordered buffer of a height `2^log_n`, width `w` matrix: apply every
twiddle layer as DIF butterflies on batch-inverted twiddles, then
`divide_by_height`.  The `from_cfft_order` height assertion becomes the
`Option` guard. -/
def CircleEvaluations.interpolate (d : CircleDomain F) (w : Nat) (v : List F) :
    Option (List F) :=
  if v.length = 2 ^ d.log_n * w then
    some ((((compute_twiddles d).map (List.map (fun t => t⁻¹))).foldl
        (serial_layer difB) v).map (fun x => x * ((2 : F) ^ d.log_n)⁻¹))
  else none

/-- `CircleEvaluations::evaluate` (cfft.rs lines 126-177): duplicate the
coefficient rows `log_n - k` times, then apply the twiddle layers in reverse
order as DIT butterflies, skipping the first `log_n - k` reversed layers.
The `log2_strict_usize` and `log_n <= domain.log_n` assertions become the
`Option` guard. -/
def CircleEvaluations.evaluate (d : CircleDomain F) (w : Nat) (v : List F) :
    Option (List F) :=
  if v.length = 2 ^ log2s (v.length / w) * w ∧ log2s (v.length / w) ≤ d.log_n then
    some ((((compute_twiddles d).reverse).drop (d.log_n - log2s (v.length / w))).foldl
        (serial_layer ditB) (dupTimes (d.log_n - log2s (v.length / w)) v))
  else none

theorem compute_twiddles_shape (d : CircleDomain F) (hn2 : 2 ≤ d.log_n)
    (w : Nat) (hw0 : 0 < w) :
    ∀ ts ∈ compute_twiddles d,
      ∃ h, 0 < ts.length ∧ 2 ^ d.log_n * w = 2 * h * ts.length := by
  intro ts hts
  obtain ⟨⟨i, hi⟩, hget⟩ := List.mem_iff_get.mp hts
  have hlen : ts.length = 2 ^ (d.log_n - 1 - i) := by
    rw [← hget]
    exact compute_twiddles_get_length d hn2 i hi
  have hin : i ≤ d.log_n - 1 := by
    have := compute_twiddles_length d hn2
    omega
  refine ⟨2 ^ i * w, by rw [hlen]; exact Nat.pos_pow_of_pos _ two_pos, ?_⟩
  rw [hlen]
  have hexp : i + (d.log_n - 1 - i) = d.log_n - 1 := by omega
  have hexp2 : d.log_n - 1 + 1 = d.log_n := by omega
  calc 2 ^ d.log_n * w
      = 2 * 2 ^ (d.log_n - 1) * w := by
        rw [← pow_succ', hexp2]
    _ = 2 * (2 ^ i * 2 ^ (d.log_n - 1 - i)) * w := by
        rw [← pow_add, hexp]
    _ = 2 * (2 ^ i * w) * 2 ^ (d.log_n - 1 - i) := by ring

/-- C1: Circle-FFT round trip.  For every circle domain with
`2 ≤ log_n ≤ 10` and every cfft-ordered evaluation buffer of height
`2^log_n` and width `w ∈ {1, 2, 4}`, evaluating the interpolated coefficients
back on the same domain returns exactly the input — an exact identity (not up
to scale) because `interpolate` ends by dividing every entry by `2^log_n`.
(Equality of the cfft-ordered buffers is equivalent to equality of their
natural-order views, which are images under the fixed `cfft_permute_index`
bijection.)  The nonzero-twiddle hypothesis is the spec's own guarantee for
the external field ("twiddle inverses are batch-computed from provably
nonzero inputs"), stated here as a hypothesis because the concrete field is
an external collaborator. -/
theorem circle_fft_round_trip (d : CircleDomain F) (w : Nat) (v : List F)
    (hn2 : 2 ≤ d.log_n) (hn10 : d.log_n ≤ 10)
    (hw : w = 1 ∨ w = 2 ∨ w = 4)
    (hlen : v.length = 2 ^ d.log_n * w)
    (hnz : ∀ ts ∈ compute_twiddles d, ∀ t ∈ ts, t ≠ 0)
    (htwo : (2 : F) ≠ 0) :
    (CircleEvaluations.interpolate d w v).bind (CircleEvaluations.evaluate d w)
      = some v := by
  have hw0 : 0 < w := by rcases hw with h | h | h <;> omega
  rw [CircleEvaluations.interpolate, if_pos hlen, Option.some_bind]
  have hXlen : (((compute_twiddles d).map (List.map (fun t => t⁻¹))).foldl
      (serial_layer difB) v).length = 2 ^ d.log_n * w := by
    rw [foldl_serial_layer_length, hlen]
  have hulen : ((((compute_twiddles d).map (List.map (fun t => t⁻¹))).foldl
      (serial_layer difB) v).map (fun x => x * ((2 : F) ^ d.log_n)⁻¹)).length
      = 2 ^ d.log_n * w := by
    rw [List.length_map, hXlen]
  have hk : log2s (((((compute_twiddles d).map (List.map (fun t => t⁻¹))).foldl
      (serial_layer difB) v).map (fun x => x * ((2 : F) ^ d.log_n)⁻¹)).length / w)
      = d.log_n := by
    rw [hulen, Nat.mul_div_cancel _ hw0, log2s_two_pow]
  rw [CircleEvaluations.evaluate, hk, if_pos ⟨by rw [hulen], le_refl _⟩,
    Nat.sub_self]
  simp only [List.drop_zero, dupTimes, Option.some.injEq]
  have hmc : (((compute_twiddles d).map (List.map (fun t => t⁻¹))).foldl
      (serial_layer difB) v).map (fun x => x * ((2 : F) ^ d.log_n)⁻¹)
      = (((compute_twiddles d).map (List.map (fun t => t⁻¹))).foldl
      (serial_layer difB) v).map (fun x => ((2 : F) ^ d.log_n)⁻¹ * x) :=
    List.map_congr_left (fun a _ => mul_comm a _)
  rw [hmc, foldl_serial_layer_map_mul ditB _ (ditB_map_mul _),
    dif_dit_round_trip (compute_twiddles d) v hnz
      (fun ts hts => by
        obtain ⟨h, h1, h2⟩ := compute_twiddles_shape d hn2 w hw0 ts hts
        exact ⟨h, h1, by rw [hlen, h2]⟩),
    List.map_map, compute_twiddles_length d hn2]
  have hid : ∀ a ∈ v,
      ((fun x => ((2 : F) ^ d.log_n)⁻¹ * x) ∘ fun x => (2 : F) ^ d.log_n * x) a
      = id a := by
    intro a _
    show ((2 : F) ^ d.log_n)⁻¹ * ((2 : F) ^ d.log_n * a) = a
    rw [← mul_assoc, inv_mul_cancel₀ (pow_ne_zero _ htwo), one_mul]
  rw [List.map_congr_left hid, List.map_id]

theorem zipWith_dit_zero_fst (t : F) :
    ∀ l : List F,
    List.zipWith (fun a b => (ditB t a b).1) l (List.replicate l.length 0) = l
  | [] => rfl
  | a :: l => by
    simp only [List.length_cons, List.replicate_succ, List.zipWith_cons_cons]
    rw [zipWith_dit_zero_fst t l]
    simp [ditB]

theorem zipWith_dit_zero_snd (t : F) :
    ∀ l : List F,
    List.zipWith (fun a b => (ditB t a b).2) l (List.replicate l.length 0) = l
  | [] => rfl
  | a :: l => by
    simp only [List.length_cons, List.replicate_succ, List.zipWith_cons_cons]
    rw [zipWith_dit_zero_snd t l]
    simp [ditB]

/-- A DIT butterfly whose `hi` half is all zeros duplicates the `lo` half —
the observation in the source comment of `evaluate` ("In `DitButterfly`,
`x_2` is 0, so both `x_1` and `x_2` are set to `x_1`"). -/
theorem applyPair_dit_zero (t : F) (l : List F) :
    applyPair ditB t l (List.replicate l.length 0) = l ++ l := by
  unfold applyPair
  rw [zipWith_dit_zero_fst, zipWith_dit_zero_snd]

theorem layerGo_append (bf : F → F → F → F × F) (half : Nat) :
    ∀ (ts1 : List F) (u1 : List F) (ts2 u2 : List F),
    u1.length = 2 * half * ts1.length →
    layerGo bf half (ts1 ++ ts2) (u1 ++ u2)
      = layerGo bf half ts1 u1 ++ layerGo bf half ts2 u2
  | [], u1, ts2, u2, h => by
    have : u1 = [] := List.eq_nil_of_length_eq_zero (by simpa using h)
    subst this
    simp [layerGo]
  | t :: ts1, u1, ts2, u2, h => by
    have hguard1 : 2 * half ≤ u1.length := by
      rw [h, List.length_cons, Nat.mul_succ]; omega
    have hguard : 2 * half ≤ (u1 ++ u2).length := by
      rw [List.length_append]; omega
    have hhalf : half ≤ u1.length := by omega
    have ht1 : (u1 ++ u2).take half = u1.take half :=
      List.take_append_of_le_length hhalf
    have ht2 : ((u1 ++ u2).drop half).take half = (u1.drop half).take half := by
      rw [List.drop_append_of_le_length hhalf,
        List.take_append_of_le_length (by rw [List.length_drop]; omega)]
    have ht3 : (u1 ++ u2).drop (2 * half) = u1.drop (2 * half) ++ u2 :=
      List.drop_append_of_le_length hguard1
    have hrest : (u1.drop (2 * half)).length = 2 * half * ts1.length := by
      rw [List.length_drop, h, List.length_cons, Nat.mul_succ]; omega
    show layerGo bf half (t :: (ts1 ++ ts2)) (u1 ++ u2) = _
    simp only [layerGo, if_pos hguard, if_pos hguard1, ht1, ht2, ht3]
    rw [layerGo_append bf half ts1 (u1.drop (2 * half)) ts2 u2 hrest,
      List.append_assoc]

theorem serial_layer_split (ts : List F) (u1 u2 : List F) (j hh : Nat)
    (hj : 0 < j) (hts : ts.length = 2 * j) (hu1 : u1.length = 2 * hh * j)
    (hlen : u2.length = u1.length) :
    serial_layer ditB (u1 ++ u2) ts
      = serial_layer ditB u1 (ts.take j) ++ serial_layer ditB u2 (ts.drop j) := by
  have htj : (ts.take j).length = j := by
    rw [List.length_take, hts]; omega
  have hdj : (ts.drop j).length = j := by
    rw [List.length_drop, hts]; omega
  have hall : (u1 ++ u2).length = 2 * hh * (2 * j) := by
    rw [List.length_append, hlen, hu1]; ring
  have h1 : (u1 ++ u2).length / ts.length / 2 = hh := by
    rw [hall, hts, Nat.mul_div_cancel _ (by omega)]; omega
  have h2 : u1.length / (ts.take j).length / 2 = hh := by
    rw [htj, hu1, Nat.mul_div_cancel _ hj]; omega
  have h3 : u2.length / (ts.drop j).length / 2 = hh := by
    rw [hdj, hlen, hu1, Nat.mul_div_cancel _ hj]; omega
  unfold serial_layer
  rw [h1, h2, h3]
  conv_lhs => rw [← List.take_append_drop j ts]
  exact layerGo_append ditB hh (ts.take j) u1 (ts.drop j) u2 (by rw [htj, hu1])

theorem foldl_serial_split (tss : List (List F)) :
    ∀ u1 u2 : List F, u2.length = u1.length →
    (∀ ts ∈ tss, ∃ j hh, 0 < j ∧ ts.length = 2 * j ∧ u1.length = 2 * hh * j) →
    tss.foldl (serial_layer ditB) (u1 ++ u2)
      = (tss.map (fun ts => ts.take (ts.length / 2))).foldl (serial_layer ditB) u1
        ++ (tss.map (fun ts => ts.drop (ts.length / 2))).foldl (serial_layer ditB) u2 := by
  induction tss with
  | nil => intro u1 u2 _ _; rfl
  | cons ts tss ih =>
    intro u1 u2 hlen hcond
    obtain ⟨j, hh, hj, hts, hu1⟩ := hcond ts (List.mem_cons_self ts tss)
    have hj2 : ts.length / 2 = j := by rw [hts]; omega
    simp only [List.map_cons, List.foldl_cons, hj2]
    rw [serial_layer_split ts u1 u2 j hh hj hts hu1 hlen]
    refine ih _ _ (by rw [serial_layer_length, serial_layer_length, hlen]) ?_
    intro ts2 hts2
    obtain ⟨j2, hh2, hj2', hts2', hu2'⟩ := hcond ts2 (List.mem_cons_of_mem _ hts2)
    exact ⟨j2, hh2, hj2', hts2', by rw [serial_layer_length, hu2']⟩

theorem join_replicate_append {α : Type} :
    ∀ (n : Nat) (v : List α),
    (List.replicate n (v ++ v)).flatten = (List.replicate (2 * n) v).flatten
  | 0, _ => rfl
  | n + 1, v => by
    have h2 : 2 * (n + 1) = 2 * n + 1 + 1 := by omega
    rw [h2]
    simp only [List.replicate_succ, List.flatten_cons]
    rw [join_replicate_append n v, List.append_assoc]

theorem dupTimes_join : ∀ (m : Nat) (v : List F),
    dupTimes m v = (List.replicate (2 ^ m) v).flatten
  | 0, v => by simp [dupTimes]
  | m + 1, v => by
    show dupTimes m (v ++ v) = _
    rw [dupTimes_join m (v ++ v), join_replicate_append, ← pow_succ']

/-- Applying DIT layers of twiddle sizes `1, 2, …, 2^(m-1)` to a zero-padded
buffer just fills the zeros with copies of the low rows: the layers only
duplicate. -/
theorem dit_layers_padding (m : Nat) :
    ∀ (tss : List (List F)) (v : List F), tss.length = m →
    (∀ (i : Nat) (hi : i < tss.length), (tss.get ⟨i, hi⟩).length = 2 ^ i) →
    tss.foldl (serial_layer ditB)
        (v ++ List.replicate ((2 ^ m - 1) * v.length) 0)
      = (List.replicate (2 ^ m) v).flatten := by
  induction m with
  | zero =>
    intro tss v htl _
    have h : tss = [] := List.eq_nil_of_length_eq_zero htl
    subst h
    simp
  | succ m ih =>
    intro tss v htl hget
    cases tss with
    | nil => simp at htl
    | cons ts0 tss =>
      have htl' : tss.length = m := by simpa using htl
      have h0 : ts0.length = 2 ^ 0 := hget 0 (by simp)
      obtain ⟨t, ht⟩ := List.length_eq_one.mp (by simpa using h0)
      subst ht
      have hb : v.length ≤ 2 ^ m * v.length :=
        Nat.le_mul_of_pos_left _ (Nat.pos_pow_of_pos _ two_pos)
      have hcount : (2 ^ (m + 1) - 1) * v.length
          = 2 * (2 ^ m * v.length) - v.length := by
        rw [Nat.sub_mul, one_mul, pow_succ', mul_assoc]
      have hcount2 : (2 ^ m - 1) * v.length = 2 ^ m * v.length - v.length := by
        rw [Nat.sub_mul, one_mul]
      have hplen : (v ++ List.replicate (2 * (2 ^ m * v.length) - v.length)
          (0 : F)).length = 2 * (2 ^ m * v.length) := by
        rw [List.length_append, List.length_replicate]
        omega
      have hlo_len : (v ++ List.replicate (2 ^ m * v.length - v.length)
          (0 : F)).length = 2 ^ m * v.length := by
        rw [List.length_append, List.length_replicate]
        omega
      have htake : (v ++ List.replicate (2 * (2 ^ m * v.length) - v.length)
          (0 : F)).take (2 ^ m * v.length)
          = v ++ List.replicate (2 ^ m * v.length - v.length) 0 := by
        rw [List.take_append_eq_append_take, List.take_of_length_le hb,
          List.take_replicate]
        congr 2
        omega
      have hdrop : (v ++ List.replicate (2 * (2 ^ m * v.length) - v.length)
          (0 : F)).drop (2 ^ m * v.length)
          = List.replicate (2 ^ m * v.length) 0 := by
        rw [List.drop_append_eq_append_drop, List.drop_of_length_le hb,
          List.drop_replicate, List.nil_append]
        congr 1
        omega
      have hpair : applyPair ditB t
          (v ++ List.replicate (2 ^ m * v.length - v.length) 0)
          (List.replicate (2 ^ m * v.length) 0)
          = (v ++ List.replicate (2 ^ m * v.length - v.length) 0) ++
            (v ++ List.replicate (2 ^ m * v.length - v.length) 0) := by
        have := applyPair_dit_zero t
          (v ++ List.replicate (2 ^ m * v.length - v.length) 0)
        rw [hlo_len] at this
        exact this
      have hsl : serial_layer ditB
          (v ++ List.replicate (2 * (2 ^ m * v.length) - v.length) 0) [t]
          = (v ++ List.replicate (2 ^ m * v.length - v.length) 0) ++
            (v ++ List.replicate (2 ^ m * v.length - v.length) 0) := by
        unfold serial_layer
        simp only [List.length_singleton, hplen]
        have hdiv : 2 * (2 ^ m * v.length) / 1 / 2 = 2 ^ m * v.length := by
          omega
        rw [hdiv]
        have hg : 2 * (2 ^ m * v.length) ≤ (v ++ List.replicate
            (2 * (2 ^ m * v.length) - v.length) (0 : F)).length :=
          le_of_eq hplen.symm
        simp only [layerGo, if_pos hg]
        rw [htake, hdrop,
          List.take_of_length_le (le_of_eq (List.length_replicate ..)),
          hpair, List.drop_of_length_le (le_of_eq hplen), List.append_nil]
      rw [hcount, List.foldl_cons, hsl,
        foldl_serial_split tss _ _ rfl ?cond]
      case cond =>
        intro ts hmem
        obtain ⟨⟨i, hi⟩, hgeti⟩ := List.mem_iff_get.mp hmem
        have him : i < m := htl' ▸ hi
        have hlen_ts : ts.length = 2 ^ (i + 1) := by
          have hh := hget (i + 1) (by simp; omega)
          rw [← hgeti]
          exact hh
        refine ⟨2 ^ i, 2 ^ (m - 1 - i) * v.length,
          Nat.pos_pow_of_pos _ two_pos, by rw [hlen_ts, pow_succ'], ?_⟩
        rw [hlo_len]
        have hexp : m - 1 - i + 1 + i = m := by omega
        calc 2 ^ m * v.length
            = 2 ^ (m - 1 - i + 1 + i) * v.length := by rw [hexp]
          _ = 2 ^ (m - 1 - i + 1) * 2 ^ i * v.length := by rw [pow_add]
          _ = 2 * 2 ^ (m - 1 - i) * 2 ^ i * v.length := by rw [pow_succ']
          _ = 2 * (2 ^ (m - 1 - i) * v.length) * 2 ^ i := by ring
      have hgtake : ∀ (i : Nat) (hi : i < (tss.map
          (fun ts : List F => ts.take (ts.length / 2))).length),
          ((tss.map (fun ts : List F => ts.take (ts.length / 2))).get
              ⟨i, hi⟩).length = 2 ^ i := by
        intro i hi
        have hi2 : i < tss.length := by simpa using hi
        have hl : (tss.get ⟨i, hi2⟩).length = 2 ^ (i + 1) := by
          have hh := hget (i + 1) (by simp; omega)
          exact hh
        rw [List.get_map, List.length_take, hl]
        have hd : 2 ^ (i + 1) / 2 = 2 ^ i := by rw [pow_succ']; omega
        rw [hd]
        exact Nat.min_eq_left (Nat.pow_le_pow_right one_le_two (by omega))
      have hgdrop : ∀ (i : Nat) (hi : i < (tss.map
          (fun ts : List F => ts.drop (ts.length / 2))).length),
          ((tss.map (fun ts : List F => ts.drop (ts.length / 2))).get
              ⟨i, hi⟩).length = 2 ^ i := by
        intro i hi
        have hi2 : i < tss.length := by simpa using hi
        have hl : (tss.get ⟨i, hi2⟩).length = 2 ^ (i + 1) := by
          have hh := hget (i + 1) (by simp; omega)
          exact hh
        rw [List.get_map, List.length_drop, hl]
        have hd : 2 ^ (i + 1) / 2 = 2 ^ i := by rw [pow_succ']; omega
        rw [pow_succ']
        omega
      have h1 := ih (tss.map (fun ts => ts.take (ts.length / 2))) v
        (by simpa using htl') hgtake
      have h2 := ih (tss.map (fun ts => ts.drop (ts.length / 2))) v
        (by simpa using htl') hgdrop
      rw [hcount2] at h1 h2
      rw [h1, h2, ← List.flatten_append, ← List.replicate_add]
      have hpp : 2 ^ m + 2 ^ m = 2 ^ (m + 1) := by rw [pow_succ']; omega
      rw [hpp]

theorem rev_take_get_length (d : CircleDomain F) (hn2 : 2 ≤ d.log_n) (m : Nat)
    (hm : m ≤ d.log_n) (i : Nat)
    (hi : i < (((compute_twiddles d).reverse).take m).length) :
    ((((compute_twiddles d).reverse).take m).get ⟨i, hi⟩).length = 2 ^ i := by
  have hcl := compute_twiddles_length d hn2
  have hi2 : i < (compute_twiddles d).length := by
    simp only [List.length_take, List.length_reverse] at hi
    omega
  have hstep : (((compute_twiddles d).reverse).take m).get ⟨i, hi⟩
      = (compute_twiddles d).get ⟨(compute_twiddles d).length - 1 - i, by omega⟩ := by
    simp [List.get_eq_getElem, List.getElem_take, List.getElem_reverse]
  rw [hstep, compute_twiddles_get_length d hn2]
  congr 1
  omega

/-- The naive evaluation baseline described by the spec for C4: pad the
coefficient rows with zeros to height `2^domain.log_n` and run all `log_n`
butterfly layers in reverse order, skipping nothing. -/
def evaluateNaiveSpec (d : CircleDomain F) (w : Nat) (v : List F) :
    Option (List F) :=
  if v.length = 2 ^ log2s (v.length / w) * w ∧ log2s (v.length / w) ≤ d.log_n then
    some (((compute_twiddles d).reverse).foldl (serial_layer ditB)
        (v ++ List.replicate (2 ^ d.log_n * w - v.length) 0))
  else none

/-- C4: zero-padding refinement of `evaluate`.  For every coefficient matrix
of power-of-two height `2^k` with `k ≤ domain.log_n`, the optimized
`evaluate` — which duplicates the coefficient rows `log_n - k` times and
skips the first `log_n - k` reversed butterfly layers — agrees with the
naive procedure that zero-pads the coefficients to height `2^log_n` and runs
all `log_n` layers. -/
theorem evaluate_zero_padding (d : CircleDomain F) (w k : Nat) (v : List F)
    (hn2 : 2 ≤ d.log_n) (hw0 : 0 < w) (hk : k ≤ d.log_n)
    (hlen : v.length = 2 ^ k * w) :
    CircleEvaluations.evaluate d w v = evaluateNaiveSpec d w v := by
  have hlog : log2s (v.length / w) = k := by
    rw [hlen, Nat.mul_div_cancel _ hw0, log2s_two_pow]
  rw [CircleEvaluations.evaluate, evaluateNaiveSpec, hlog,
    if_pos ⟨hlen, hk⟩, if_pos ⟨hlen, hk⟩]
  congr 1
  conv_rhs =>
    rw [← List.take_append_drop (d.log_n - k) ((compute_twiddles d).reverse)]
  rw [List.foldl_append]
  congr 1
  have hexp : d.log_n - k + k = d.log_n := by omega
  have hpadeq : (2 ^ (d.log_n - k) - 1) * v.length
      = 2 ^ d.log_n * w - v.length := by
    rw [Nat.sub_mul, one_mul, hlen, ← mul_assoc, ← pow_add, hexp]
  rw [← hpadeq,
    dit_layers_padding (d.log_n - k) _ v
      (by
        simp only [List.length_take, List.length_reverse,
          compute_twiddles_length d hn2]
        omega)
      (fun i hi => rev_take_get_length d hn2 (d.log_n - k) (by omega) i hi),
    dupTimes_join]

theorem twiddleLoop_getD_zero (prev : List F) (m : Nat) (hm : 0 < m) :
    (twiddleLoop prev m).getD 0 [] = nextTwiddleLayer prev := by
  cases m with
  | zero => omega
  | succ m => rfl

theorem twiddleLoop_getD_succ (m : Nat) :
    ∀ (prev : List F) (i : Nat), i + 1 < m →
    (twiddleLoop prev m).getD (i + 1) []
      = nextTwiddleLayer ((twiddleLoop prev m).getD i []) := by
  induction m with
  | zero => intro prev i h; omega
  | succ m ih =>
    intro prev i h
    cases i with
    | zero =>
      show (twiddleLoop (nextTwiddleLayer prev) m).getD 0 []
        = nextTwiddleLayer (nextTwiddleLayer prev)
      exact twiddleLoop_getD_zero _ m (by omega)
    | succ i =>
      show (twiddleLoop (nextTwiddleLayer prev) m).getD (i + 1) []
        = nextTwiddleLayer ((twiddleLoop (nextTwiddleLayer prev) m).getD i [])
      exact ih _ i (by omega)

/-- C8: structure of the twiddle table.  For every circle domain with
`log_n ≥ 2`, `compute_twiddles` returns exactly `log_n` layers; layer 0 is
the bit-reversed list of y-coordinates of the half-coset `coset0` (length
`2^(log_n-1)`); layer 1 is the x-coordinates of the bit-reversed points at
stride 2 (length `2^(log_n-2)`); each subsequent layer is obtained from the
previous one by taking every second entry `x` and mapping it to `2·x² - 1`,
halving the length each time; and for `log_n = 3` the three layers have
lengths 4, 2, 1 with the last layer `[2·layer1[0]² - 1]`. -/
theorem twiddle_table_structure (d : CircleDomain F) (h2 : 2 ≤ d.log_n) :
    (compute_twiddles d).length = d.log_n ∧
    (compute_twiddles d).getD 0 []
      = (bitRevList ⟨0, 0⟩ d.coset0).map Point.y ∧
    (compute_twiddles d).getD 1 []
      = (stepBy2 (bitRevList ⟨0, 0⟩ d.coset0)).map Point.x ∧
    (∀ i, i + 2 < d.log_n →
      (compute_twiddles d).getD (i + 2) []
        = (stepBy2 ((compute_twiddles d).getD (i + 1) [])).map
            (fun x => 2 * x ^ 2 - 1)) ∧
    (∀ (i : Nat) (hi : i < (compute_twiddles d).length),
      ((compute_twiddles d).get ⟨i, hi⟩).length = 2 ^ (d.log_n - 1 - i)) ∧
    (d.log_n = 3 →
      (compute_twiddles d).map List.length = [4, 2, 1] ∧
      (compute_twiddles d).getD 2 []
        = [2 * ((compute_twiddles d).getD 1 []).getD 0 0 ^ 2 - 1]) := by
  have hmapsq : ∀ l : List F,
      l.map (fun x => 2 * (x * x) - 1) = l.map (fun x => 2 * x ^ 2 - 1) :=
    fun l => List.map_congr_left (fun a _ => by ring_nf)
  refine ⟨compute_twiddles_length d h2, rfl, rfl, ?_, ?_, ?_⟩
  · intro i hi
    cases i with
    | zero =>
      show (twiddleLoop ((stepBy2 (bitRevList ⟨0, 0⟩ d.coset0)).map Point.x)
          (d.log_n - 2)).getD 0 [] = _
      rw [twiddleLoop_getD_zero _ _ (by omega)]
      exact (hmapsq _) ▸ rfl
    | succ i =>
      show (twiddleLoop ((stepBy2 (bitRevList ⟨0, 0⟩ d.coset0)).map Point.x)
          (d.log_n - 2)).getD (i + 1) [] = _
      rw [twiddleLoop_getD_succ _ _ _ (by omega)]
      exact hmapsq _
  · exact compute_twiddles_get_length d h2
  · intro h3
    have hc0 : (bitRevList (⟨0, 0⟩ : Point F) d.coset0).length = 2 ^ 2 := by
      rw [bitRevList_length, coset0_length, h3]
    have hl1 : ((stepBy2 (bitRevList (⟨0, 0⟩ : Point F) d.coset0)).map
        Point.x).length = 2 := by
      rw [List.length_map, stepBy2_length_pow _ _ hc0]
      rfl
    obtain ⟨a, b, hab⟩ := List.length_eq_two.mp hl1
    have hstruct : compute_twiddles d
        = [(bitRevList ⟨0, 0⟩ d.coset0).map Point.y,
            (stepBy2 (bitRevList ⟨0, 0⟩ d.coset0)).map Point.x,
            nextTwiddleLayer ((stepBy2 (bitRevList ⟨0, 0⟩ d.coset0)).map Point.x)] := by
      rw [compute_twiddles]
      rw [show d.log_n - 2 = 1 from by omega]
      rfl
    constructor
    · rw [hstruct]
      simp only [List.map_cons, List.map_nil]
      have e0 : ((bitRevList (⟨0, 0⟩ : Point F) d.coset0).map Point.y).length = 4 := by
        rw [List.length_map, hc0]
        norm_num
      have e2 : (nextTwiddleLayer ((stepBy2 (bitRevList (⟨0, 0⟩ : Point F)
          d.coset0)).map Point.x)).length = 1 := by
        rw [nextTwiddleLayer_length_pow _ 1 (by rw [hl1]; norm_num)]
        norm_num
      rw [e0, hl1, e2]
    · rw [hstruct]
      show nextTwiddleLayer ((stepBy2 (bitRevList ⟨0, 0⟩ d.coset0)).map Point.x)
        = _
      rw [hab]
      show [2 * (a * a) - 1] = [2 * a ^ 2 - 1]
      have : 2 * (a * a) - 1 = 2 * a ^ 2 - 1 := by ring_nf
      rw [this]

end CircleFft

instance : Fact (Nat.Prime 7) := ⟨by norm_num⟩

/-- A concrete circle domain over `ZMod 7` (whose circle group
`x² + y² = 1` is cyclic of order 8): `log_n = 2`, shift `(2, 2)` and
half-coset generator `(6, 0)` of order 2. -/
def demoDomain7 : CircleDomain (ZMod 7) := ⟨2, ⟨2, 2⟩, ⟨6, 0⟩⟩

/-- Witness for C1: the round trip on the concrete domain `demoDomain7`
with the evaluation column `[1, 2, 3, 4]`. -/
theorem circle_fft_round_trip_witness :
    (CircleEvaluations.interpolate demoDomain7 1 [1, 2, 3, 4]).bind
      (CircleEvaluations.evaluate demoDomain7 1) = some [1, 2, 3, 4] :=
  circle_fft_round_trip demoDomain7 1 [1, 2, 3, 4] (by decide) (by decide)
    (Or.inl rfl) (by decide) (by decide) (by decide)

/-- Witness for C4: the optimized and the naive evaluation agree on
`demoDomain7` for a height-2 (so `k = 1 < log_n = 2`) coefficient column. -/
theorem evaluate_zero_padding_witness :
    CircleEvaluations.evaluate demoDomain7 1 [1, 2]
      = evaluateNaiveSpec demoDomain7 1 [1, 2] :=
  evaluate_zero_padding demoDomain7 1 1 [1, 2] (by decide) (by decide)
    (by decide) (by decide)

/-- A concrete `log_n = 3` circle domain over `ZMod 7`: shift `(2, 2)` and
half-coset generator `(0, 1)` of order 4. -/
def demoDomain7Log3 : CircleDomain (ZMod 7) := ⟨3, ⟨2, 2⟩, ⟨0, 1⟩⟩

/-- Witness for C8: the twiddle-table structure theorem applied to the
concrete `log_n = 3` domain `demoDomain7Log3`. -/
theorem twiddle_table_structure_witness :
    (compute_twiddles demoDomain7Log3).length = demoDomain7Log3.log_n ∧
    (compute_twiddles demoDomain7Log3).getD 0 []
      = (bitRevList ⟨0, 0⟩ demoDomain7Log3.coset0).map Point.y ∧
    (compute_twiddles demoDomain7Log3).getD 1 []
      = (stepBy2 (bitRevList ⟨0, 0⟩ demoDomain7Log3.coset0)).map Point.x ∧
    (∀ i, i + 2 < demoDomain7Log3.log_n →
      (compute_twiddles demoDomain7Log3).getD (i + 2) []
        = (stepBy2 ((compute_twiddles demoDomain7Log3).getD (i + 1) [])).map
            (fun x => 2 * x ^ 2 - 1)) ∧
    (∀ (i : Nat) (hi : i < (compute_twiddles demoDomain7Log3).length),
      ((compute_twiddles demoDomain7Log3).get ⟨i, hi⟩).length
        = 2 ^ (demoDomain7Log3.log_n - 1 - i)) ∧
    (demoDomain7Log3.log_n = 3 →
      (compute_twiddles demoDomain7Log3).map List.length = [4, 2, 1] ∧
      (compute_twiddles demoDomain7Log3).getD 2 []
        = [2 * ((compute_twiddles demoDomain7Log3).getD 1 []).getD 0 0 ^ 2 - 1]) :=
  twiddle_table_structure demoDomain7Log3 (by decide)

section Fri

variable {F C P IP E W S : Type}

deriving instance DecidableEq for Except

/-- `FriError` (verifier.rs lines 12-18). -/
inductive FriError (E : Type) where
  | InvalidProofShape : FriError E
  | CommitPhaseMmcsError : E → FriError E
  | FinalPolyMismatch : FriError E
  | InvalidPowWitness : FriError E
  deriving DecidableEq

/-- `p3_matrix::Dimensions`, the width/height pair handed to `verify_batch`. -/
structure Dimensions where
  width : Nat
  height : Nat
  deriving DecidableEq

/-- `CommitPhaseProofStep` (fri crate): the claimed sibling value plus the
opaque opening proof for one commit-phase layer. -/
structure CommitPhaseProofStep (F P : Type) where
  sibling_value : F
  opening_proof : P
  deriving DecidableEq

/-- `QueryProof` (fri crate). -/
structure QueryProof (F P IP : Type) where
  input_proof : IP
  commit_phase_openings : List (CommitPhaseProofStep F P)
  deriving DecidableEq

/-- `FriProof` (fri crate). -/
structure FriProof (F C P IP W : Type) where
  commit_phase_commits : List C
  query_proofs : List (QueryProof F P IP)
  final_poly : F
  pow_witness : W
  deriving DecidableEq

/-- `FriConfig` (the fields `verify` reads; the mmcs and the generic config
are passed separately as oracles). -/
structure FriConfig where
  log_blowup : Nat
  num_queries : Nat
  proof_of_work_bits : Nat
  deriving DecidableEq

/-- Modelled from the spec: the Fiat-Shamir challenger interface the verifier
consumes (`observe`, `sample`, `sample_bits`, `check_witness`), with the
challenger's mutable state `S` threaded explicitly. -/
structure Challenger (S C F W : Type) where
  observe : S → C → S
  sample : S → F × S
  sampleBits : S → Nat → Nat × S
  checkWitness : S → Nat → W → Bool × S

/-- One commit-phase folding step of `verify_query` (verifier.rs lines
104-128): reconstruct the sibling pair (`evals[index_sibling % 2] =
sibling_value`, the other slot keeps `folded_eval`), call `verify_batch` at
the reduced index on a single matrix of dimensions `(2, 2^log_folded_height)`,
mapping failure to `CommitPhaseMmcsError`, then fold. -/
def commitStep [Field F]
    (vb : C → List Dimensions → Nat → List (List F) → P → Except E Unit)
    (fold : Nat → Nat → F → List F → F)
    (log_folded_height : Nat) (beta : F) (comm : C)
    (opening : CommitPhaseProofStep F P) (index : Nat) (folded_eval : F) :
    Except (FriError E) (Nat × F) :=
  let index_sibling := index ^^^ 1
  let index_pair := index >>> 1
  let evals := (List.replicate 2 folded_eval).set (index_sibling % 2)
    opening.sibling_value
  let dims := [Dimensions.mk 2 (2 ^ log_folded_height)]
  match vb comm dims index_pair [evals] opening.opening_proof with
  | Except.error e => Except.error (FriError.CommitPhaseMmcsError e)
  | Except.ok _ =>
    Except.ok (index_pair, fold index_pair log_folded_height beta evals)

/-- The `izip!((0..log_max_height).rev(), steps)` loop of `verify_query`:
before each step a reduced opening at `log_folded_height + 1` is consumed
from the head of the list (`next_if`) into the accumulator. -/
def verifyQueryGo [Field F]
    (vb : C → List Dimensions → Nat → List (List F) → P → Except E Unit)
    (fold : Nat → Nat → F → List F → F) :
    List (Nat × F × C × CommitPhaseProofStep F P) → Nat → F →
    List (Nat × F) → Except (FriError E) (Nat × F × List (Nat × F))
  | [], index, folded, ro => Except.ok (index, folded, ro)
  | (lfh, beta, comm, opening) :: rest, index, folded, ro =>
    let consumed : F × List (Nat × F) :=
      match ro with
      | (lh, r) :: rtail =>
        if lh = lfh + 1 then (folded + r, rtail) else (folded, (lh, r) :: rtail)
      | [] => (folded, [])
    match commitStep vb fold lfh beta comm opening index consumed.1 with
    | Except.error e => Except.error e
    | Except.ok (i2, f2) => verifyQueryGo vb fold rest i2 f2 consumed.2

/-- `verify_query` (verifier.rs lines 84-138).  The two trailing
`debug_assert!`s (`index < config.blowup()` and the drained
reduced-openings check) are modelled by the outer `Option`: `none` is an
assertion failure. -/
def verify_query [Field F] [DecidableEq F]
    (vb : C → List Dimensions → Nat → List (List F) → P → Except E Unit)
    (fold : Nat → Nat → F → List F → F) (log_blowup : Nat) (index : Nat)
    (steps : List (F × C × CommitPhaseProofStep F P))
    (reduced_openings : List (Nat × F)) (log_max_height : Nat) :
    Option (Except (FriError E) F) :=
  match verifyQueryGo vb fold
      (List.zip ((List.range log_max_height).reverse) steps) index 0
      reduced_openings with
  | Except.error e => some (Except.error e)
  | Except.ok (i2, folded, roRem) =>
    if i2 < 2 ^ log_blowup ∧ roRem = [] then some (Except.ok folded) else none

theorem xor_one_mod_two (n : Nat) : (n ^^^ 1) % 2 = 1 - n % 2 := by
  rw [Nat.xor_mod_two_eq]
  omega

/-- C2: FRI per-layer sibling reconstruction.  In every commit-phase folding
step the verifier builds the two-element pair with its own accumulator
`folded_eval` at position `index & 1` and the proof's claimed
`sibling_value` at position `(index ^ 1) & 1`, then calls `verify_batch` on
the layer commitment at reduced index `index >> 1` with exactly one matrix
of dimensions `(width 2, height 2^log_folded_height)`, returning
`CommitPhaseMmcsError` exactly when that call fails. -/
theorem fri_sibling_reconstruction [Field F]
    (vb : C → List Dimensions → Nat → List (List F) → P → Except E Unit)
    (fold : Nat → Nat → F → List F → F) (lfh : Nat) (beta : F) (comm : C)
    (opening : CommitPhaseProofStep F P) (index : Nat) (folded_eval : F) :
    ((List.replicate 2 folded_eval).set ((index ^^^ 1) % 2)
        opening.sibling_value).get? (index % 2) = some folded_eval ∧
    ((List.replicate 2 folded_eval).set ((index ^^^ 1) % 2)
        opening.sibling_value).get? ((index ^^^ 1) % 2)
      = some opening.sibling_value ∧
    commitStep vb fold lfh beta comm opening index folded_eval
      = (match vb comm [Dimensions.mk 2 (2 ^ lfh)] (index >>> 1)
            [(List.replicate 2 folded_eval).set ((index ^^^ 1) % 2)
              opening.sibling_value] opening.opening_proof with
          | Except.error e => Except.error (FriError.CommitPhaseMmcsError e)
          | Except.ok _ => Except.ok (index >>> 1,
              fold (index >>> 1) lfh beta
                ((List.replicate 2 folded_eval).set ((index ^^^ 1) % 2)
                  opening.sibling_value))) := by
  have hx := xor_one_mod_two index
  have hm : index % 2 = 0 ∨ index % 2 = 1 := Nat.mod_two_eq_zero_or_one index
  refine ⟨?_, ?_, rfl⟩
  · rcases hm with h | h <;> rw [h] <;> rw [h] at hx <;> rw [hx] <;> rfl
  · rcases hm with h | h <;> rw [h] at hx <;> rw [hx] <;> rfl

theorem commitStep_ok [Field F]
    (vb : C → List Dimensions → Nat → List (List F) → P → Except E Unit)
    (fold : Nat → Nat → F → List F → F)
    (hvb : ∀ c d i l p, vb c d i l p = Except.ok ())
    (lfh : Nat) (beta : F) (comm : C) (opening : CommitPhaseProofStep F P)
    (index : Nat) (folded : F) :
    commitStep vb fold lfh beta comm opening index folded
      = Except.ok (index >>> 1, fold (index >>> 1) lfh beta
          ((List.replicate 2 folded).set ((index ^^^ 1) % 2)
            opening.sibling_value)) := by
  unfold commitStep
  simp only [hvb]

/-- If the batch verifier accepts everything, the folding loop never errors,
and an entry of the reduced-openings list whose `log_height` matches no
visited `log_folded_height + 1` is still present when the loop ends. -/
theorem verifyQueryGo_bad_remains [Field F]
    (vb : C → List Dimensions → Nat → List (List F) → P → Except E Unit)
    (fold : Nat → Nat → F → List F → F)
    (hvb : ∀ c d i l p, vb c d i l p = Except.ok ()) (hv : Nat) (x : F) :
    ∀ (pairs : List (Nat × F × C × CommitPhaseProofStep F P)) (index : Nat)
      (folded : F) (ro : List (Nat × F)),
    (hv, x) ∈ ro → (∀ q ∈ pairs, hv ≠ q.1 + 1) →
    ∃ i2 f2 roRem, verifyQueryGo vb fold pairs index folded ro
      = Except.ok (i2, f2, roRem) ∧ (hv, x) ∈ roRem := by
  intro pairs
  induction pairs with
  | nil =>
    intro index folded ro hmem _
    exact ⟨index, folded, ro, rfl, hmem⟩
  | cons hd rest ih =>
    obtain ⟨lfh, beta, comm, opening⟩ := hd
    intro index folded ro hmem hno
    have hne : hv ≠ lfh + 1 :=
      hno (lfh, beta, comm, opening) (List.mem_cons_self _ _)
    cases ro with
    | nil => exact absurd hmem (List.not_mem_nil _)
    | cons hd2 rtail =>
      obtain ⟨lh, r⟩ := hd2
      by_cases hlh : lh = lfh + 1
      · have hmem2 : (hv, x) ∈ rtail := by
          rcases List.mem_cons.mp hmem with h | h
          · exact absurd (congrArg Prod.fst h) (by simpa [hlh] using hne)
          · exact h
        simp only [verifyQueryGo, if_pos hlh,
          commitStep_ok vb fold hvb lfh beta comm opening index]
        exact ih _ _ _ hmem2 (fun q hq => hno q (List.mem_cons_of_mem _ hq))
      · simp only [verifyQueryGo, if_neg hlh,
          commitStep_ok vb fold hvb lfh beta comm opening index]
        exact ih _ _ _ hmem (fun q hq => hno q (List.mem_cons_of_mem _ hq))

/-- C7: drained reduced openings.  After the commit-phase folding loop the
verifier asserts that no reduced-opening entries remain; consequently,
whenever `verify_query` is run (against an accepting batch verifier) on a
reduced-openings list containing an entry whose `log_height` is not of the
form `log_folded_height + 1` for any visited layer, execution fails at this
assertion (the model's `none`) rather than returning `Ok`. -/
theorem fri_reduced_openings_drained [Field F] [DecidableEq F]
    (vb : C → List Dimensions → Nat → List (List F) → P → Except E Unit)
    (fold : Nat → Nat → F → List F → F) (log_blowup index : Nat)
    (steps : List (F × C × CommitPhaseProofStep F P))
    (ro : List (Nat × F)) (log_max_height : Nat)
    (hvb : ∀ c d i l p, vb c d i l p = Except.ok ())
    (hbad : ∃ p ∈ ro,
      ∀ q ∈ List.zip ((List.range log_max_height).reverse) steps,
        p.1 ≠ q.1 + 1) :
    verify_query vb fold log_blowup index steps ro log_max_height = none := by
  obtain ⟨⟨hv, x⟩, hmem, hno⟩ := hbad
  obtain ⟨i2, f2, roRem, heq, hmem2⟩ :=
    verifyQueryGo_bad_remains vb fold hvb hv x
      (List.zip ((List.range log_max_height).reverse) steps) index 0 ro hmem hno
  rw [verify_query, heq]
  have hne : roRem ≠ [] := by
    intro h
    subst h
    exact List.not_mem_nil _ hmem2
  exact if_neg (fun h => hne h.2)

/-- The beta-sampling loop of `verify` (verifier.rs lines 33-40): observe
each commit-phase commitment into the challenger and sample a folding
challenge. -/
def sampleBetas (ch : Challenger S C F W) : List C → S → List F × S
  | [], s => ([], s)
  | c :: cs, s =>
    let p := ch.sample (ch.observe s c)
    let rest := sampleBetas ch cs p.2
    (p.1 :: rest.1, rest.2)

/-- The per-query loop of `verify` (verifier.rs lines 53-73): sample the
query index, open the input, fold with `verify_query`, and compare the fully
folded evaluation against `final_poly`. -/
def queriesLoop [Field F] [DecidableEq F] (ch : Challenger S C F W)
    (vb : C → List Dimensions → Nat → List (List F) → P → Except E Unit)
    (fold : Nat → Nat → F → List F → F) (g_extra : Nat)
    (log_max_height log_blowup : Nat) (betas : List F) (commits : List C)
    (final_poly : F) (open_input : Nat → IP → List (Nat × F)) :
    List (QueryProof F P IP) → S → Option (Except (FriError E) Unit)
  | [], _ => some (Except.ok ())
  | qp :: rest, s =>
    let pr := ch.sampleBits s (log_max_height + g_extra)
    match verify_query vb fold log_blowup (pr.1 >>> g_extra)
        (List.zip betas (List.zip commits qp.commit_phase_openings))
        (open_input pr.1 qp.input_proof) log_max_height with
    | none => none
    | some (Except.error e) => some (Except.error e)
    | some (Except.ok folded_eval) =>
      if folded_eval ≠ final_poly then
        some (Except.error FriError.FinalPolyMismatch)
      else
        queriesLoop ch vb fold g_extra log_max_height log_blowup betas commits
          final_poly open_input rest pr.2

/-- `verify` (verifier.rs lines 20-76). -/
def verify [Field F] [DecidableEq F] (ch : Challenger S C F W)
    (g_extra : Nat)
    (vb : C → List Dimensions → Nat → List (List F) → P → Except E Unit)
    (fold : Nat → Nat → F → List F → F)
    (config : FriConfig) (proof : FriProof F C P IP W) (s0 : S)
    (open_input : Nat → IP → List (Nat × F)) :
    Option (Except (FriError E) Unit) :=
  let bs := sampleBetas ch proof.commit_phase_commits s0
  if proof.query_proofs.length ≠ config.num_queries then
    some (Except.error FriError.InvalidProofShape)
  else
    let cw := ch.checkWitness bs.2 config.proof_of_work_bits proof.pow_witness
    if ! cw.1 then some (Except.error FriError.InvalidPowWitness)
    else
      queriesLoop ch vb fold g_extra
        (proof.commit_phase_commits.length + config.log_blowup)
        config.log_blowup bs.1 proof.commit_phase_commits proof.final_poly
        open_input proof.query_proofs cw.2

/-- The per-query `verify_query` results with the challenger state threaded
exactly as `verify` threads it (index sampling is independent of the
comparison outcomes, so these are well defined even when `verify` returns
early). -/
def queryResults [Field F] [DecidableEq F] (ch : Challenger S C F W)
    (vb : C → List Dimensions → Nat → List (List F) → P → Except E Unit)
    (fold : Nat → Nat → F → List F → F) (g_extra : Nat)
    (log_max_height log_blowup : Nat) (betas : List F) (commits : List C)
    (open_input : Nat → IP → List (Nat × F)) :
    List (QueryProof F P IP) → S → List (Option (Except (FriError E) F))
  | [], _ => []
  | qp :: rest, s =>
    let pr := ch.sampleBits s (log_max_height + g_extra)
    verify_query vb fold log_blowup (pr.1 >>> g_extra)
        (List.zip betas (List.zip commits qp.commit_phase_openings))
        (open_input pr.1 qp.input_proof) log_max_height ::
      queryResults ch vb fold g_extra log_max_height log_blowup betas commits
        open_input rest pr.2

/-- The query results of a whole `verify` run. -/
def verifyQueryResults [Field F] [DecidableEq F] (ch : Challenger S C F W)
    (vb : C → List Dimensions → Nat → List (List F) → P → Except E Unit)
    (fold : Nat → Nat → F → List F → F) (g_extra : Nat)
    (config : FriConfig) (proof : FriProof F C P IP W) (s0 : S)
    (open_input : Nat → IP → List (Nat × F)) :
    List (Option (Except (FriError E) F)) :=
  queryResults ch vb fold g_extra
    (proof.commit_phase_commits.length + config.log_blowup) config.log_blowup
    (sampleBetas ch proof.commit_phase_commits s0).1
    proof.commit_phase_commits open_input proof.query_proofs
    (ch.checkWitness (sampleBetas ch proof.commit_phase_commits s0).2
      config.proof_of_work_bits proof.pow_witness).2

theorem queriesLoop_characterization [Field F] [DecidableEq F] [DecidableEq E]
    (ch : Challenger S C F W)
    (vb : C → List Dimensions → Nat → List (List F) → P → Except E Unit)
    (fold : Nat → Nat → F → List F → F) (g_extra : Nat)
    (log_max_height log_blowup : Nat) (betas : List F) (commits : List C)
    (final_poly : F) (open_input : Nat → IP → List (Nat × F)) :
    ∀ (qps : List (QueryProof F P IP)) (s : S),
    (∀ r ∈ queryResults ch vb fold g_extra log_max_height log_blowup betas
        commits open_input qps s, ∃ fe, r = some (Except.ok fe)) →
    queriesLoop ch vb fold g_extra log_max_height log_blowup betas commits
        final_poly open_input qps s
      = some (if ∀ r ∈ queryResults ch vb fold g_extra log_max_height
            log_blowup betas commits open_input qps s,
            r = some (Except.ok final_poly)
          then Except.ok () else Except.error FriError.FinalPolyMismatch) := by
  intro qps
  induction qps with
  | nil =>
    intro s _
    rw [if_pos]
    · rfl
    · intro r hr
      exact absurd hr (List.not_mem_nil _)
  | cons qp rest ih =>
    intro s hok
    have hunfold : queryResults ch vb fold g_extra log_max_height log_blowup
        betas commits open_input (qp :: rest) s
      = verify_query vb fold log_blowup
          ((ch.sampleBits s (log_max_height + g_extra)).1 >>> g_extra)
          (List.zip betas (List.zip commits qp.commit_phase_openings))
          (open_input (ch.sampleBits s (log_max_height + g_extra)).1
            qp.input_proof) log_max_height ::
        queryResults ch vb fold g_extra log_max_height log_blowup betas
          commits open_input rest
          (ch.sampleBits s (log_max_height + g_extra)).2 := rfl
    rw [hunfold] at hok ⊢
    obtain ⟨fe, hfe⟩ := hok _ (List.mem_cons_self _ _)
    have htail : ∀ r ∈ queryResults ch vb fold g_extra log_max_height
        log_blowup betas commits open_input rest
        (ch.sampleBits s (log_max_height + g_extra)).2,
        ∃ fe2, r = some (Except.ok fe2) :=
      fun r hr => hok r (List.mem_cons_of_mem _ hr)
    show (match verify_query vb fold log_blowup _ _ _ log_max_height with
      | none => none
      | some (Except.error e) => some (Except.error e)
      | some (Except.ok folded_eval) =>
        if folded_eval ≠ final_poly then
          some (Except.error FriError.FinalPolyMismatch)
        else queriesLoop ch vb fold g_extra log_max_height log_blowup betas
          commits final_poly open_input rest
          (ch.sampleBits s (log_max_height + g_extra)).2) = _
    rw [hfe]
    have hred : (match some (Except.ok fe) with
      | none => none
      | some (Except.error e) => some (Except.error e)
      | some (Except.ok folded_eval) =>
        if folded_eval ≠ final_poly then
          some (Except.error FriError.FinalPolyMismatch)
        else queriesLoop ch vb fold g_extra log_max_height log_blowup betas
          commits final_poly open_input rest
          (ch.sampleBits s (log_max_height + g_extra)).2 :
        Option (Except (FriError E) Unit))
      = if fe ≠ final_poly then some (Except.error FriError.FinalPolyMismatch)
        else queriesLoop ch vb fold g_extra log_max_height log_blowup betas
          commits final_poly open_input rest
          (ch.sampleBits s (log_max_height + g_extra)).2 := rfl
    rw [hred]
    by_cases hfp : fe = final_poly
    · subst hfp
      rw [if_neg (show ¬ fe ≠ fe from by simp), ih _ htail]
      congr 1
      refine if_congr ?_ rfl rfl
      constructor
      · intro hall r hr
        rcases List.mem_cons.mp hr with h | h
        · exact h
        · exact hall r h
      · intro hall r hr
        exact hall r (List.mem_cons_of_mem _ hr)
    · rw [if_pos hfp]
      have hcons : ¬ ∀ r ∈ (some (Except.ok fe) :: queryResults ch vb fold
          g_extra log_max_height log_blowup betas commits open_input rest
          (ch.sampleBits s (log_max_height + g_extra)).2 :
          List (Option (Except (FriError E) F))),
          r = some (Except.ok final_poly) := by
        intro hall
        have hthis := hall _ (List.mem_cons_self _ _)
        exact hfp (by simpa using hthis)
      exact congrArg some (if_neg hcons).symm

/-- C5: the final-polynomial check.  For a proof that passes the shape and
proof-of-work checks and whose queries all pass the commit-phase opening
checks (each `verify_query` returns a folded evaluation), `verify` returns
`FinalPolyMismatch` exactly when some query's fully folded evaluation
differs from `proof.final_poly`, and `Ok(())` otherwise. -/
theorem fri_final_poly_check [Field F] [DecidableEq F] [DecidableEq E]
    (ch : Challenger S C F W) (g_extra : Nat)
    (vb : C → List Dimensions → Nat → List (List F) → P → Except E Unit)
    (fold : Nat → Nat → F → List F → F)
    (config : FriConfig) (proof : FriProof F C P IP W) (s0 : S)
    (open_input : Nat → IP → List (Nat × F))
    (hshape : proof.query_proofs.length = config.num_queries)
    (hpow : (ch.checkWitness (sampleBetas ch proof.commit_phase_commits s0).2
        config.proof_of_work_bits proof.pow_witness).1 = true)
    (hok : ∀ r ∈ verifyQueryResults ch vb fold g_extra config proof s0
        open_input, ∃ fe, r = some (Except.ok fe)) :
    verify ch g_extra vb fold config proof s0 open_input
      = some (if ∀ r ∈ verifyQueryResults ch vb fold g_extra config proof s0
            open_input, r = some (Except.ok proof.final_poly)
          then Except.ok () else Except.error FriError.FinalPolyMismatch) := by
  rw [verify]
  simp only [hshape, ne_eq, not_true_eq_false, if_false, hpow,
    Bool.not_true, Bool.false_eq_true, if_false]
  exact queriesLoop_characterization ch vb fold g_extra _ _ _ _ _ _ _ _ hok

end Fri

/-- A deterministic demo challenger over state `Nat`: observing or sampling
bumps the state; `sample_bits n` returns `state % 2^n`; the proof-of-work
check always passes. -/
def demoChallenger : Challenger Nat Unit (ZMod 7) Unit :=
  ⟨fun s _ => s + 1, fun s => (0, s + 1), fun s n => (s % 2 ^ n, s + 1),
    fun s _ _ => (true, s + 1)⟩

/-- A batch verifier that accepts every opening. -/
def demoVb : Unit → List Dimensions → Nat → List (List (ZMod 7)) → Unit →
    Except Unit Unit := fun _ _ _ _ _ => Except.ok ()

/-- A trivial folding rule. -/
def demoFold : Nat → Nat → ZMod 7 → List (ZMod 7) → ZMod 7 := fun _ _ _ _ => 0

def demoFriConfig : FriConfig := ⟨1, 1, 0⟩

def demoFriProof : FriProof (ZMod 7) Unit Unit Unit Unit :=
  ⟨[()], [⟨(), [⟨3, ()⟩]⟩], 0, ()⟩

def demoOpenInput : Nat → Unit → List (Nat × ZMod 7) := fun _ _ => []

/-- Witness for C5: on a concrete one-commit, one-query instance whose shape,
proof-of-work and opening checks pass and whose folded evaluation matches
`final_poly`, `verify` returns `Ok(())`. -/
theorem fri_final_poly_check_witness :
    verify demoChallenger 0 demoVb demoFold demoFriConfig demoFriProof 0
        demoOpenInput = some (Except.ok ()) := by
  rw [fri_final_poly_check demoChallenger 0 demoVb demoFold demoFriConfig
    demoFriProof 0 demoOpenInput (by decide) (by decide) (by decide)]
  decide

/-- Witness for C7: a reduced-openings entry at `log_height = 5`, which is
`log_folded_height + 1` for no visited layer of a two-layer fold, makes
`verify_query` fail at the drain assertion. -/
theorem fri_reduced_openings_drained_witness :
    verify_query demoVb demoFold 1 3 [((0 : ZMod 7), (), ⟨3, ()⟩)]
        [(5, 1)] 2 = none :=
  fri_reduced_openings_drained demoVb demoFold 1 3
    [((0 : ZMod 7), (), ⟨3, ()⟩)] [(5, 1)] 2
    (fun _ _ _ _ _ => rfl) ⟨(5, 1), by decide, by decide⟩

section Poseidon2

variable {F : Type} [CommRing F]

/-- `SUPPORTED_WIDTHS` (poseidon2/src/lib.rs line 26). -/
def SUPPORTED_WIDTHS : List Nat := [2, 3, 4, 8, 12, 16, 20, 24]

/-- `Poseidon2` configuration (poseidon2/src/lib.rs lines 30-49).  The two
linear layers are the external `MdsLightPermutation` / `DiffusionPermutation`
oracles, modelled as functions on the state. -/
structure Poseidon2 (F : Type) where
  rounds_f : Nat
  external_constants : List (List F)
  external_linear_layer : List F → List F
  rounds_p : Nat
  internal_constants : List F
  internal_linear_layer : List F → List F

/-- `Poseidon2::new` (lib.rs lines 57-74): asserts
`SUPPORTED_WIDTHS.contains(&WIDTH)` (the `Option` guard) and stores the
configuration. -/
def Poseidon2.new (WIDTH : Nat) (rounds_f : Nat)
    (external_constants : List (List F)) (external_linear_layer : List F → List F)
    (rounds_p : Nat) (internal_constants : List F)
    (internal_linear_layer : List F → List F) : Option (Poseidon2 F) :=
  if SUPPORTED_WIDTHS.contains WIDTH then
    some ⟨rounds_f, external_constants, external_linear_layer, rounds_p,
      internal_constants, internal_linear_layer⟩
  else none

/-- `Poseidon2::new_from_rng` (lib.rs lines 77-105): draws the round
constants from the rng (modelled as a stream of field elements) and stores
the configuration.  The body performs no width check, so the constructor is
always `some`. -/
def Poseidon2.new_from_rng (WIDTH : Nat) (rounds_f : Nat)
    (external_layer : List F → List F) (rounds_p : Nat)
    (internal_layer : List F → List F) (rng : Nat → F) : Option (Poseidon2 F) :=
  some ⟨rounds_f,
    (List.range rounds_f).map
      (fun r => (List.range WIDTH).map (fun i => rng (r * WIDTH + i))),
    external_layer, rounds_p,
    (List.range rounds_p).map (fun r => rng (rounds_f * WIDTH + r)),
    internal_layer⟩

/-- `Poseidon2::add_rc` (lib.rs lines 108-116). -/
def add_rc (state rc : List F) : List F := List.zipWith (· + ·) state rc

/-- `Poseidon2::sbox_p` (lib.rs lines 119-124): `x ↦ x^D`. -/
def sbox_p (D : Nat) (x : F) : F := x ^ D

/-- `Poseidon2::sbox` (lib.rs lines 127-132). -/
def sbox (D : Nat) (state : List F) : List F := state.map (sbox_p D)

/-- In-place update of `state[0]` only. -/
def headUpdate (f : F → F) : List F → List F
  | [] => []
  | a :: rest => f a :: rest

/-- One external round body (lib.rs lines 149-153): add the per-round
external constants, apply the S-box to every element, apply the external
linear layer. -/
def externalRound (p : Poseidon2 F) (D : Nat) (state : List F) (r : Nat) :
    List F :=
  p.external_linear_layer (sbox D (add_rc state (p.external_constants.getD r [])))

/-- One internal round body (lib.rs lines 156-160): add the internal round
constant to `state[0]`, apply the S-box to `state[0]` only, apply the
internal linear layer. -/
def internalRound (p : Poseidon2 F) (D : Nat) (state : List F) (r : Nat) :
    List F :=
  p.internal_linear_layer
    (headUpdate (sbox_p D)
      (headUpdate (· + p.internal_constants.getD r 0) state))

/-- `Poseidon2::permute_mut` (lib.rs lines 143-168), as the source writes it:
the initial external linear layer, then the round loops indexed by
`0..rounds_f/2`, `0..rounds_p` and `rounds_f/2..rounds_f`. -/
def Poseidon2.permute_mut (p : Poseidon2 F) (D : Nat) (state : List F) :
    List F :=
  let s0 := p.external_linear_layer state
  let s1 := (List.range (p.rounds_f / 2)).foldl (externalRound p D) s0
  let s2 := (List.range p.rounds_p).foldl (internalRound p D) s1
  (List.range' (p.rounds_f / 2) (p.rounds_f - p.rounds_f / 2)).foldl
    (externalRound p D) s2

/-- The first/second half of the external rounds as the spec phrases them:
a fold over the corresponding slice of the external constants list. -/
def specExternalPhase (extL : List F → List F) (D : Nat)
    (constants : List (List F)) (state : List F) : List F :=
  constants.foldl (fun st rc => extL (sbox D (add_rc st rc))) state

/-- The internal phase as the spec phrases it: a fold over the internal
constants. -/
def specInternalPhase (intL : List F → List F) (D : Nat) (constants : List F)
    (state : List F) : List F :=
  constants.foldl
    (fun st c => intL (headUpdate (sbox_p D) (headUpdate (· + c) st))) state

/-- The composition described by the spec for C3: initial external linear
layer; `rounds_f/2` external rounds over the first half of the external
constants; `rounds_p` internal rounds; `rounds_f/2` further external rounds
over the remaining external constants. -/
def poseidon2SpecComposition (p : Poseidon2 F) (D : Nat) (state : List F) :
    List F :=
  specExternalPhase p.external_linear_layer D
    (p.external_constants.drop (p.rounds_f / 2))
    (specInternalPhase p.internal_linear_layer D p.internal_constants
      (specExternalPhase p.external_linear_layer D
        (p.external_constants.take (p.rounds_f / 2))
        (p.external_linear_layer state)))

theorem foldl_range'_getD {α β : Type} (g : β → α → β) (dflt : α) :
    ∀ (n a : Nat) (l : List α) (s : β), a + n ≤ l.length →
    (List.range' a n).foldl (fun st r => g st (l.getD r dflt)) s
      = (((l.drop a).take n).foldl g s) := by
  intro n
  induction n with
  | zero => intro a l s _; rfl
  | succ n ih =>
    intro a l s h
    have ha : a < l.length := by omega
    rw [List.range'_succ, List.foldl_cons,
      List.drop_eq_getElem_cons ha]
    have hgd : l.getD a dflt = l[a] := by
      rw [List.getD_eq_getElem l dflt ha]
    rw [hgd, List.take_succ_cons, List.foldl_cons]
    exact ih (a + 1) l (g s l[a]) (by omega)

/-- C3: Poseidon2 round structure.  For every state, `permute_mut` equals the
spec's composition: one external linear layer; `rounds_f/2` external rounds
(each adding the per-round external constants, applying `x ↦ x^D` to every
element and the external linear layer); `rounds_p` internal rounds (each
adding the internal constant to `state[0]` only, applying `x ↦ x^D` to
`state[0]` only and the internal linear layer); then the remaining
`rounds_f/2` external rounds over the remaining external constants. -/
theorem poseidon2_round_structure (p : Poseidon2 F) (D : Nat) (state : List F)
    (hec : p.external_constants.length = p.rounds_f)
    (hic : p.internal_constants.length = p.rounds_p) :
    p.permute_mut D state = poseidon2SpecComposition p D state := by
  have h1 : (List.range (p.rounds_f / 2)).foldl (externalRound p D)
      (p.external_linear_layer state)
      = specExternalPhase p.external_linear_layer D
          (p.external_constants.take (p.rounds_f / 2))
          (p.external_linear_layer state) := by
    rw [List.range_eq_range']
    have h := foldl_range'_getD
      (fun st rc => p.external_linear_layer (sbox D (add_rc st rc)))
      ([] : List F) (p.rounds_f / 2) 0 p.external_constants
      (p.external_linear_layer state) (by omega)
    rw [List.drop_zero] at h
    exact h
  have h2 : ∀ s : List F, (List.range p.rounds_p).foldl (internalRound p D) s
      = specInternalPhase p.internal_linear_layer D p.internal_constants s := by
    intro s
    rw [List.range_eq_range']
    have h := foldl_range'_getD
      (fun st c => p.internal_linear_layer
        (headUpdate (sbox_p D) (headUpdate (· + c) st)))
      (0 : F) p.rounds_p 0 p.internal_constants s (by omega)
    rw [List.drop_zero, List.take_of_length_le (le_of_eq hic)] at h
    exact h
  have h3 : ∀ s : List F,
      (List.range' (p.rounds_f / 2) (p.rounds_f - p.rounds_f / 2)).foldl
        (externalRound p D) s
      = specExternalPhase p.external_linear_layer D
          (p.external_constants.drop (p.rounds_f / 2)) s := by
    intro s
    have h := foldl_range'_getD
      (fun st rc => p.external_linear_layer (sbox D (add_rc st rc)))
      ([] : List F) (p.rounds_f - p.rounds_f / 2) (p.rounds_f / 2)
      p.external_constants s (by omega)
    rw [List.take_of_length_le
      (by rw [List.length_drop, hec])] at h
    exact h
  show (List.range' (p.rounds_f / 2) (p.rounds_f - p.rounds_f / 2)).foldl
      (externalRound p D)
      ((List.range p.rounds_p).foldl (internalRound p D)
        ((List.range (p.rounds_f / 2)).foldl (externalRound p D)
          (p.external_linear_layer state))) = _
  rw [h1, h2, h3]
  rfl

/-- C6 (amended): `Poseidon2::new` fails fast exactly when the compile-time
`WIDTH` is not one of `{2, 3, 4, 8, 12, 16, 20, 24}` and succeeds for every
width in that set; `new_from_rng`, however, performs no width check and
succeeds for every `WIDTH`. -/
theorem poseidon2_width_rejection (WIDTH rf rp : Nat)
    (ec : List (List F)) (extL intL : List F → List F) (ic : List F)
    (rng : Nat → F) :
    ((Poseidon2.new WIDTH rf ec extL rp ic intL).isSome
      ↔ SUPPORTED_WIDTHS.contains WIDTH = true) ∧
    (Poseidon2.new_from_rng WIDTH rf extL rp intL rng).isSome = true := by
  refine ⟨?_, rfl⟩
  unfold Poseidon2.new
  by_cases h : SUPPORTED_WIDTHS.contains WIDTH = true
  · simp [h]
  · simp [h]

end Poseidon2

def demoPoseidon2 : Poseidon2 (ZMod 7) :=
  ⟨2, [[1, 2], [3, 4]], id, 1, [5], fun s => s.map (· * 2)⟩

/-- Witness for C3: `permute_mut` equals the spec composition on a concrete
width-2 instance over `ZMod 7` with `rounds_f = 2`, `rounds_p = 1`,
`D = 3`. -/
theorem poseidon2_round_structure_witness :
    demoPoseidon2.permute_mut 3 [1, 2]
      = poseidon2SpecComposition demoPoseidon2 3 [1, 2] :=
  poseidon2_round_structure demoPoseidon2 3 [1, 2] (by decide) (by decide)

/-- Counterexample for C6 as stated: `new_from_rng` performs no width
check — at the unsupported `WIDTH = 5` it still constructs an instance
instead of failing fast. -/
theorem poseidon2_new_from_rng_no_width_check :
    (Poseidon2.new_from_rng (F := ZMod 7) 5 8 id 22 id (fun _ => 0)).isSome
      = true ∧ SUPPORTED_WIDTHS.contains 5 = false :=
  ⟨rfl, rfl⟩

section Blake3

variable {T : Type}

/-- Modelled from the spec: `U32_LIMBS` of `blake3-air/src/constants.rs`
(not under `src/`) — a 32-bit word is split into 16-bit limbs. -/
def U32_LIMBS : Nat := 2

/-- Cell count of `Blake3State` (columns.rs lines 38-44): rows 0 and 2 as
`4 × U32_LIMBS` limbs, rows 1 and 3 as `4 × 32` boolean bits. -/
def blake3StateSize : Nat := 4 * U32_LIMBS + 4 * 32 + 4 * U32_LIMBS + 4 * 32

/-- Cell count of `FullRound` (columns.rs lines 47-72): four states plus the
two `[[[T; 2]; 4]; 4]` tables of carry helpers. -/
def fullRoundSize : Nat :=
  blake3StateSize + 4 * 4 * 2 + blake3StateSize + blake3StateSize +
    4 * 4 * 2 + blake3StateSize

/-- `NUM_BLAKE3_COLS = size_of::<Blake3Cols<u8>>()` (columns.rs line 102).
For a `repr(C)` struct of `u8` cells (alignment 1, no padding) this is the
total number of cells: the sum of the field sizes in declaration order. -/
def NUM_BLAKE3_COLS : Nat :=
  16 * 32 + 2 * 4 * 32 + 32 + 32 + 32 + 32 + 4 * U32_LIMBS + 4 * U32_LIMBS +
    7 * fullRoundSize + 4 * 32 + 4 * 4 * 32

/-- The structured view `Blake3Cols` (columns.rs lines 10-32), each `repr(C)`
field holding its cells flattened in declaration order. -/
structure Blake3Cols (T : Type) where
  inputs : List T
  chaining_values : List T
  counter_low : List T
  counter_hi : List T
  block_len : List T
  flags : List T
  initial_row0 : List T
  initial_row2 : List T
  full_rounds : List T
  final_round_helpers : List T
  outputs : List T

/-- `Borrow<Blake3Cols<T>> for [T]` (columns.rs lines 104-113): reinterpret
the flat slice as the structured layout at the cumulative `repr(C)` offsets
(inputs at 0, chaining_values at 512, …, outputs at 9104).  A slice whose
length differs from `NUM_BLAKE3_COLS` is rejected at the conversion boundary
(`debug_assert_eq!(self.len(), NUM_BLAKE3_COLS)`), modelled as `none`. -/
def borrowBlake3Cols (l : List T) : Option (Blake3Cols T) :=
  if l.length = NUM_BLAKE3_COLS then
    some ⟨l.take 512,
      (l.drop 512).take 256,
      (l.drop 768).take 32,
      (l.drop 800).take 32,
      (l.drop 832).take 32,
      (l.drop 864).take 32,
      (l.drop 896).take 8,
      (l.drop 904).take 8,
      (l.drop 912).take 8064,
      (l.drop 8976).take 128,
      (l.drop 9104).take 512⟩
  else none

/-- The inverse direction of the bidirectional view: the structured fields
laid out back-to-back in declaration order. -/
def flattenBlake3Cols (c : Blake3Cols T) : List T :=
  c.inputs ++ c.chaining_values ++ c.counter_low ++ c.counter_hi ++
    c.block_len ++ c.flags ++ c.initial_row0 ++ c.initial_row2 ++
    c.full_rounds ++ c.final_round_helpers ++ c.outputs

theorem take_drop_chain (l : List T) (a k b : Nat) (h : b = a + k) :
    (l.drop a).take k ++ l.drop b = l.drop a := by
  have h2 : l.drop b = (l.drop a).drop k := by
    rw [List.drop_drop]
    congr 1
  rw [h2, List.take_append_drop]

/-- C9: Blake3 column view length invariant.  The flat-slice view is formed
exactly for slices whose length equals `NUM_BLAKE3_COLS` — which equals the
total number of `T` cells in the `Blake3Cols` schema, 9616 — any other
length is rejected at the conversion boundary; and the view is faithful:
flattening the structured fields returns the original slice. -/
theorem blake3_cols_view (l : List T) :
    ((borrowBlake3Cols l).isSome ↔ l.length = NUM_BLAKE3_COLS) ∧
    NUM_BLAKE3_COLS = 9616 ∧
    (∀ c, borrowBlake3Cols l = some c → flattenBlake3Cols c = l) := by
  refine ⟨?_, rfl, ?_⟩
  · unfold borrowBlake3Cols
    by_cases h : l.length = NUM_BLAKE3_COLS
    · rw [if_pos h]
      simp [h]
    · rw [if_neg h]
      simp [h]
  · intro c hc
    have hlen : l.length = NUM_BLAKE3_COLS := by
      by_contra h
      rw [borrowBlake3Cols, if_neg h] at hc
      exact Option.noConfusion hc
    rw [borrowBlake3Cols, if_pos hlen, Option.some.injEq] at hc
    have h9616 : l.length = 9616 := by rw [hlen]; decide
    subst hc
    unfold flattenBlake3Cols
    simp only [List.append_assoc]
    rw [List.take_of_length_le
        (show (l.drop 9104).length ≤ 512 by rw [List.length_drop]; omega),
      take_drop_chain l 8976 128 9104 (by norm_num),
      take_drop_chain l 912 8064 8976 (by norm_num),
      take_drop_chain l 904 8 912 (by norm_num),
      take_drop_chain l 896 8 904 (by norm_num),
      take_drop_chain l 864 32 896 (by norm_num),
      take_drop_chain l 832 32 864 (by norm_num),
      take_drop_chain l 800 32 832 (by norm_num),
      take_drop_chain l 768 32 800 (by norm_num),
      take_drop_chain l 512 256 768 (by norm_num),
      List.take_append_drop]

end Blake3

/-- Witness for C9: a flat slice of exactly `NUM_BLAKE3_COLS` cells is
accepted by the view. -/
theorem blake3_cols_view_witness :
    (borrowBlake3Cols (List.replicate NUM_BLAKE3_COLS (0 : Nat))).isSome :=
  (blake3_cols_view (List.replicate NUM_BLAKE3_COLS (0 : Nat))).1.mpr
    (List.length_replicate ..)

section Mersenne31Fft

/-- The Mersenne-31 field `ℤ/(2^31 - 1)` (the base-field arithmetic itself is
an external collaborator; only the ring operations are used here). -/
abbrev Mersenne31 : Type := ZMod 2147483647

/-- `INV_TWIDDLES_4` (backward.rs line 16) — two entries. -/
def INV_TWIDDLES_4 : List Mersenne31 := [991237807, 1371835609]

/-- `INV_TWIDDLES_8` (backward.rs line 17). -/
def INV_TWIDDLES_8 : List Mersenne31 :=
  [1160411471, 490549293, 204982243, 628957573]

/-- `INV_TWIDDLES_16` (backward.rs line 18). -/
def INV_TWIDDLES_16 : List Mersenne31 :=
  [1899133673, 685780700, 761629115, 1798231519, 421110815, 1859156789,
    655012266, 969924856]

/-- `INV_TWIDDLES_32` (backward.rs line 19). -/
def INV_TWIDDLES_32 : List Mersenne31 :=
  [959596234, 721860568, 218253990, 1955048591, 1046725194, 1036402186,
    1268642696, 559888787, 1381082522, 2138687850, 448375059, 559361447,
    1356867335, 1767118503, 1051468699, 2029303208]

/-- `backward_butterfly` (backward.rs lines 22-30):
`(x, y) ↦ (x + y, (x - y)·w)`. -/
def backward_butterfly (x y w : Mersenne31) : Mersenne31 × Mersenne31 :=
  (x + y, (x - y) * w)

/-- The `izip!` loop of `backward_pass`: butterflies applied until the
shortest of the three sequences is exhausted, the rest left unchanged. -/
def butterflyZip : List Mersenne31 → List Mersenne31 → List Mersenne31 →
    List Mersenne31 × List Mersenne31
  | x :: xs, y :: ys, r :: rs =>
    let p := backward_butterfly x y r
    let rest := butterflyZip xs ys rs
    (p.1 :: rest.1, p.2 :: rest.2)
  | xs, ys, _ => (xs, ys)

/-- `backward_pass` (backward.rs lines 33-43): asserts
`roots.len() == half_n - 1` (the `Option` guard), splits the buffer at
`half_n` and butterflies the two halves against the roots. -/
def backward_pass (a roots : List Mersenne31) : Option (List Mersenne31) :=
  if roots.length = a.length / 2 - 1 then
    some ((butterflyZip (a.take (a.length / 2)) (a.drop (a.length / 2))
        roots).1 ++
      (butterflyZip (a.take (a.length / 2)) (a.drop (a.length / 2)) roots).2)
  else none

/-- `backward_2` (backward.rs lines 46-53): the twiddle for the innermost
layer is `2^16`. -/
def backward_2 (a : List Mersenne31) : Option (List Mersenne31) :=
  if a.length = 2 then
    some [a.getD 0 0 + a.getD 1 0, (a.getD 0 0 - a.getD 1 0) * 65536]
  else none

/-- `backward_4` (backward.rs lines 56-66): `backward_pass` against
`INV_TWIDDLES_4` first, then `backward_2` on each half. -/
def backward_4 (a : List Mersenne31) : Option (List Mersenne31) :=
  if a.length = 4 then
    (backward_pass a INV_TWIDDLES_4).bind (fun a2 =>
      (backward_2 (a2.take 2)).bind (fun a0 =>
        (backward_2 (a2.drop 2)).map (fun a1 => a0 ++ a1)))
  else none

/-- `backward_8` (backward.rs lines 69-78): recurse on the halves, then
`backward_pass` against `INV_TWIDDLES_8`. -/
def backward_8 (a : List Mersenne31) : Option (List Mersenne31) :=
  if a.length = 8 then
    (backward_4 (a.take 4)).bind (fun a0 =>
      (backward_4 (a.drop 4)).bind (fun a1 =>
        backward_pass (a0 ++ a1) INV_TWIDDLES_8))
  else none

/-- `backward_16` (backward.rs lines 81-90). -/
def backward_16 (a : List Mersenne31) : Option (List Mersenne31) :=
  if a.length = 16 then
    (backward_8 (a.take 8)).bind (fun a0 =>
      (backward_8 (a.drop 8)).bind (fun a1 =>
        backward_pass (a0 ++ a1) INV_TWIDDLES_16))
  else none

/-- `backward_32` (backward.rs lines 93-104). -/
def backward_32 (a : List Mersenne31) : Option (List Mersenne31) :=
  if a.length = 32 then
    (backward_16 (a.take 16)).bind (fun a0 =>
      (backward_16 (a.drop 16)).bind (fun a1 =>
        backward_pass (a0 ++ a1) INV_TWIDDLES_32))
  else none

/-- `backward_64` (backward.rs lines 107-119): the pass twiddles come from
`root_table[0]` (`none` when the table is empty, where the source would
panic). -/
def backward_64 (a : List Mersenne31) (root_table : List (List Mersenne31)) :
    Option (List Mersenne31) :=
  if a.length = 64 then
    match root_table with
    | [] => none
    | t0 :: _ =>
      (backward_32 (a.take 32)).bind (fun a0 =>
        (backward_32 (a.drop 32)).bind (fun a1 =>
          backward_pass (a0 ++ a1) t0))
  else none

/-- `backward_128` (backward.rs lines 122-134). -/
def backward_128 (a : List Mersenne31) (root_table : List (List Mersenne31)) :
    Option (List Mersenne31) :=
  if a.length = 128 then
    match root_table with
    | [] => none
    | t0 :: rest =>
      (backward_64 (a.take 64) rest).bind (fun a0 =>
        (backward_64 (a.drop 64) rest).bind (fun a1 =>
          backward_pass (a0 ++ a1) t0))
  else none

/-- `backward_256` (backward.rs lines 137-149). -/
def backward_256 (a : List Mersenne31) (root_table : List (List Mersenne31)) :
    Option (List Mersenne31) :=
  if a.length = 256 then
    match root_table with
    | [] => none
    | t0 :: rest =>
      (backward_128 (a.take 128) rest).bind (fun a0 =>
        (backward_128 (a.drop 128) rest).bind (fun a1 =>
          backward_pass (a0 ++ a1) t0))
  else none

/-- The body of `backward_fft` (backward.rs lines 152-182): early return for
`n = 1`; assert `n == 1 << (twiddle_table.len() + 1)`; dispatch on `n`, the
default branch (with its `debug_assert!(n > 64)`) recursing on the halves
through the `recurse` callback with the tail of the twiddle table. -/
def backward_fft_body (a : List Mersenne31)
    (twiddle_table : List (List Mersenne31))
    (recurse : List Mersenne31 → Option (List Mersenne31)) :
    Option (List Mersenne31) :=
  if a.length = 1 then some a
  else if a.length = 2 ^ (twiddle_table.length + 1) then
    if a.length = 256 then backward_256 a twiddle_table
    else if a.length = 128 then backward_128 a twiddle_table
    else if a.length = 64 then backward_64 a twiddle_table
    else if a.length = 32 then backward_32 a
    else if a.length = 16 then backward_16 a
    else if a.length = 8 then backward_8 a
    else if a.length = 4 then backward_4 a
    else if a.length = 2 then backward_2 a
    else if a.length ≤ 64 then none
    else
      match twiddle_table with
      | [] => none
      | t0 :: _ =>
        (recurse (a.take (a.length / 2))).bind (fun a0 =>
          (recurse (a.drop (a.length / 2))).bind (fun a1 =>
            backward_pass (a0 ++ a1) t0))
  else none

/-- The recursion of `backward_fft`, structural on the twiddle table (the
default branch always passes `twiddle_table[1..]`). -/
def backwardFftRec : List (List Mersenne31) → List Mersenne31 →
    Option (List Mersenne31)
  | [], a => backward_fft_body a [] (fun _ => none)
  | t0 :: rest, a =>
    backward_fft_body a (t0 :: rest) (fun b => backwardFftRec rest b)

/-- `Mersenne31::backward_fft` (backward.rs lines 152-182). -/
def backward_fft (a : List Mersenne31)
    (twiddle_table : List (List Mersenne31)) : Option (List Mersenne31) :=
  backwardFftRec twiddle_table a

/-- C10 (code bug): at the very first size that reaches `backward_pass`
(`n = 4`, `twiddle_table` of length 1 as `n = 2^(len+1)` requires),
`backward_fft` dispatches to `backward_4`, which calls `backward_pass`
with `INV_TWIDDLES_4`; the assertion `roots.len() == half_n - 1` then fails
because `INV_TWIDDLES_4` has 2 entries while `half_n - 1 = 1`.  The claim
that `backward_fft` completes without assertion failure for every
power-of-two `2 ≤ n ≤ 256` is false on this code for every `n ≥ 4`. -/
theorem backward_fft_4_assertion_failure :
    backward_fft [1, 2, 3, 4] [[0]] = none ∧
    INV_TWIDDLES_4.length = 2 ∧
    ([1, 2, 3, 4] : List Mersenne31).length / 2 - 1 = 1 ∧
    backward_fft [1, 2] [] = some [3, 2147418111] :=
  ⟨rfl, rfl, rfl, by decide⟩

end Mersenne31Fft

end Plonky3
